import Mathlib

/-!
Verification of the orchestrator/worker workflow pattern of
`src/models/openai/patterns/workflows/2-workflow-patterns/4-orchestrator.py`.

The two delegated remote capabilities are modelled as parameters:
`create_workflow_plan` becomes an `Except String WorkflowPlan` value (the
outcome of the planning call: a plan, or a raised exception's `str`), and
`execute_task` becomes a function `Task → Except String String` (a result
string, or a raised exception's `str`).  Python's `dict` keyed by task id
is an association list with Python-dict insert semantics (overwrite in
place, otherwise append).  Wall-clock time is abstracted by an
`elapsed_ms` parameter used on the success path; the failure path returns
the literal `0` exactly as the source does.  The unbounded `while` loop is
embedded with a fuel argument counting full scans of the task list:
`none` means the fuel was exhausted before the loop condition became
false, which is the fuelled image of non-termination.
-/

namespace Orch

/-- Embeds the `Task` pydantic model (4-orchestrator.py, lines 47-54). -/
structure Task where
  task_id : String
  description : String
  dependencies : List String
  status : String
  result : Option String
deriving DecidableEq, Repr

/-- Embeds the `WorkflowPlan` pydantic model (lines 57-66).  The two
`datetime` fields are not consulted by any orchestration logic and are
omitted; elapsed time is abstracted as a parameter of
`orchestrate_workflow`. -/
structure WorkflowPlan where
  workflow_id : String
  tasks : List Task
  current_stage : String
deriving DecidableEq, Repr

/-- Embeds the `WorkflowResult` pydantic model (lines 69-76); the
`results : dict` field is an association list in insertion order. -/
structure WorkflowResult where
  workflow_id : String
  success : Bool
  results : List (String × String)
  execution_time_ms : Nat
  error_message : Option String
deriving DecidableEq, Repr

/-- Python `key in results` on a dict embedded as an association list. -/
def dictContains (d : List (String × String)) (k : String) : Bool :=
  d.any (fun p => p.1 == k)

/-- Python `results[k] = v`: overwrite in place when the key exists,
otherwise append (Python dicts preserve insertion order). -/
def dictInsert (d : List (String × String)) (k v : String) : List (String × String) :=
  if dictContains d k then d.map (fun p => if p.1 == k then (k, v) else p)
  else d ++ [(k, v)]

/-- One full pass of the inner `for task in plan.tasks:` loop (lines
133-141): for each task in list order, if its status is not `"completed"`
and every declared dependency is a key of `results`, call
`execute_task`, store the result on the task and in `results`, and mark
the task `"completed"`.  An exception from `execute_task` aborts the scan
(and the whole run).  The mutated task list and results dict are threaded
explicitly; note that `results` grows during the scan, so a task later in
the list already sees the results of tasks executed earlier in the same
scan. -/
def scanTasks (execute_task : Task → Except String String) :
    List Task → List (String × String) →
    Except String (List Task × List (String × String))
  | [], results => .ok ([], results)
  | t :: ts, results =>
    if t.status != "completed" then
      if t.dependencies.all (fun dep => dictContains results dep) then
        match execute_task t with
        | .error e => .error e
        | .ok r =>
          match scanTasks execute_task ts (dictInsert results t.task_id r) with
          | .error e => .error e
          | .ok (ts', results') =>
            .ok ({ t with result := some r, status := "completed" } :: ts', results')
      else
        match scanTasks execute_task ts results with
        | .error e => .error e
        | .ok (ts', results') => .ok (t :: ts', results')
    else
      match scanTasks execute_task ts results with
      | .error e => .error e
      | .ok (ts', results') => .ok (t :: ts', results')

/-- The `while not all(task.status == "completed" for task in plan.tasks)`
condition (line 132). -/
def allCompleted (tasks : List Task) : Bool :=
  tasks.all (fun t => t.status == "completed")

/-- The `while` loop of lines 132-141, fuelled by the number of full
scans still allowed.  `none` means the fuel ran out with the loop still
running (the fuelled image of non-termination); `some (.error e)` means
some `execute_task` call raised `e`; `some (.ok (tasks, results))` means
the loop condition became false. -/
def runLoop (execute_task : Task → Except String String) :
    Nat → List Task → List (String × String) →
    Option (Except String (List Task × List (String × String)))
  | 0, tasks, results =>
    if allCompleted tasks then some (.ok (tasks, results)) else none
  | fuel + 1, tasks, results =>
    if allCompleted tasks then some (.ok (tasks, results))
    else
      match scanTasks execute_task tasks results with
      | .error e => some (.error e)
      | .ok (tasks', results') => runLoop execute_task fuel tasks' results'

/-- Embeds `orchestrate_workflow` (lines 121-162).  `planned` is the
outcome of the `create_workflow_plan` call; `elapsed_ms` abstracts the
wall-clock duration measured on the success path.  On any exception the
source returns `workflow_id="failed"`, `success=False`, empty results,
`execution_time_ms=0` and `error_message=str(e)`. -/
def orchestrate_workflow (planned : Except String WorkflowPlan)
    (execute_task : Task → Except String String)
    (elapsed_ms : Nat) (fuel : Nat) : Option WorkflowResult :=
  match planned with
  | .error e =>
    some { workflow_id := "failed", success := false, results := [],
           execution_time_ms := 0, error_message := some e }
  | .ok plan =>
    match runLoop execute_task fuel plan.tasks [] with
    | none => none
    | some (.error e) =>
      some { workflow_id := "failed", success := false, results := [],
             execution_time_ms := 0, error_message := some e }
    | some (.ok (_, results)) =>
      some { workflow_id := plan.workflow_id, success := true, results := results,
             execution_time_ms := elapsed_ms, error_message := none }

/-- Instrumented variant of `scanTasks` that additionally returns the
execution trace of the scan: for every `execute_task` invocation, the
task as passed to the call together with the results dict at that moment,
in invocation order.  `scanTasksT_fst` proves it computes exactly
`scanTasks`. -/
def scanTasksT (execute_task : Task → Except String String) :
    List Task → List (String × String) →
    Except String (List Task × List (String × String)) ×
      List (Task × List (String × String))
  | [], results => (.ok ([], results), [])
  | t :: ts, results =>
    if t.status != "completed" then
      if t.dependencies.all (fun dep => dictContains results dep) then
        match execute_task t with
        | .error e => (.error e, [(t, results)])
        | .ok r =>
          match scanTasksT execute_task ts (dictInsert results t.task_id r) with
          | (.error e, tr) => (.error e, (t, results) :: tr)
          | (.ok (ts', results'), tr) =>
            (.ok ({ t with result := some r, status := "completed" } :: ts', results'),
             (t, results) :: tr)
      else
        match scanTasksT execute_task ts results with
        | (.error e, tr) => (.error e, tr)
        | (.ok (ts', results'), tr) => (.ok (t :: ts', results'), tr)
    else
      match scanTasksT execute_task ts results with
      | (.error e, tr) => (.error e, tr)
      | (.ok (ts', results'), tr) => (.ok (t :: ts', results'), tr)

/-- Instrumented variant of `runLoop` accumulating the execution traces
of all scans, in order. -/
def runLoopT (execute_task : Task → Except String String) :
    Nat → List Task → List (String × String) →
    Option (Except String (List Task × List (String × String))) ×
      List (Task × List (String × String))
  | 0, tasks, results =>
    if allCompleted tasks then (some (.ok (tasks, results)), []) else (none, [])
  | fuel + 1, tasks, results =>
    if allCompleted tasks then (some (.ok (tasks, results)), [])
    else
      match scanTasksT execute_task tasks results with
      | (.error e, tr) => (some (.error e), tr)
      | (.ok (tasks', results'), tr) =>
        match runLoopT execute_task fuel tasks' results' with
        | (out, tr') => (out, tr ++ tr')

/-! ### Concrete plans and executors instantiating the theorems -/

/-- Task `"A"`: no dependencies, initially `"pending"`. -/
def taskA : Task :=
  { task_id := "A", description := "analyze the article",
    dependencies := [], status := "pending", result := none }

/-- Task `"B"`: depends on `"A"`, initially `"pending"`. -/
def taskB : Task :=
  { task_id := "B", description := "summarize the analysis",
    dependencies := ["A"], status := "pending", result := none }

/-- Task `"C"`: depends on `"A"`, initially `"pending"`. -/
def taskC : Task :=
  { task_id := "C", description := "draft posts from the analysis",
    dependencies := ["A"], status := "pending", result := none }

/-- The three-task scenario plan: A, then B and C both depending on A. -/
def planABC : WorkflowPlan :=
  { workflow_id := "wf-1", tasks := [taskA, taskB, taskC],
    current_stage := "created" }

/-- The two-task plan A, then B depending on A. -/
def planAB : WorkflowPlan :=
  { workflow_id := "wf-2", tasks := [taskA, taskB], current_stage := "created" }

/-- A deterministic always-returning executor. -/
def execDemo : Task → Except String String :=
  fun t => .ok (String.append "r-" t.task_id)

/-- An executor raising on task `"B"` and returning on every other task. -/
def execFailB : Task → Except String String :=
  fun t => if t.task_id == "B" then .error "boom: B exploded"
           else .ok (String.append "r-" t.task_id)

/-- Topological ranking of the demo graphs: `"A"` below everything else. -/
def rankDemo : String → Nat :=
  fun s => if s == "A" then 0 else 1

/-- Cyclic scenario: `"A"` depends on `"B"`. -/
def taskAcyc : Task :=
  { task_id := "A", description := "a", dependencies := ["B"],
    status := "pending", result := none }

/-- Cyclic scenario: `"B"` depends on `"A"`. -/
def taskBcyc : Task :=
  { task_id := "B", description := "b", dependencies := ["A"],
    status := "pending", result := none }

/-- The cyclic two-task plan of the C4 scenario. -/
def planCyc : WorkflowPlan :=
  { workflow_id := "wf-cyc", tasks := [taskAcyc, taskBcyc],
    current_stage := "created" }

/-- A task already `"completed"` when the planner returns it. -/
def taskDone : Task :=
  { task_id := "D", description := "d", dependencies := [],
    status := "completed", result := none }

/-- A plan containing only an initially-`"completed"` task. -/
def planDone : WorkflowPlan :=
  { workflow_id := "wf-done", tasks := [taskDone], current_stage := "created" }

/-- A task whose initial status is the untracked string `"in_progress"`. -/
def taskWeird : Task :=
  { task_id := "W", description := "w", dependencies := [],
    status := "in_progress", result := none }

/-! ### Specification predicates over the embedded state -/

/-- How one scan may act on one task: leave it alone, or (when its status
was not `"completed"`) store the output of `execute_task` and mark it
`"completed"`. -/
def StepRel (f : Task → Except String String) (t t' : Task) : Prop :=
  t' = t ∨ (t.status ≠ "completed" ∧
    ∃ r, f t = .ok r ∧ t' = { t with result := some r, status := "completed" })

/-- Number of tasks the loop condition still counts as unfinished. -/
def pendCount (ts : List Task) : Nat :=
  ts.countP (fun t => t.status != "completed")

/-- Every declared dependency names a task of the plan. -/
def DepsExist (ts : List Task) : Prop :=
  ∀ t ∈ ts, ∀ d ∈ t.dependencies, ∃ u ∈ ts, u.task_id = d

/-- `rank` is a topological ranking of the dependency graph: every
dependency's id ranks strictly below the depending task's id.  A finite
dependency graph admits such a ranking exactly when it is acyclic. -/
def Ranked (rank : String → Nat) (ts : List Task) : Prop :=
  ∀ t ∈ ts, ∀ d ∈ t.dependencies, rank d < rank t.task_id

/-- Every `"completed"` task's id is a key of the results dict. -/
def CompKeys (ts : List Task) (res : List (String × String)) : Prop :=
  ∀ t ∈ ts, t.status = "completed" → dictContains res t.task_id = true

/-- No unfinished task's id is already a key of the results dict. -/
def Fresh (ts : List Task) (res : List (String × String)) : Prop :=
  ∀ t ∈ ts, t.status ≠ "completed" → dictContains res t.task_id = false

/-- Every key of the results dict names a `"completed"` task. -/
def KeysComp (ts : List Task) (res : List (String × String)) : Prop :=
  ∀ k, dictContains res k = true →
    ∃ u ∈ ts, u.task_id = k ∧ u.status = "completed"

/-! ### Dictionary lemmas -/

theorem dictContains_iff_mem (d : List (String × String)) (k : String) :
    dictContains d k = true ↔ k ∈ d.map Prod.fst := by
  simp only [dictContains, List.any_eq_true, List.mem_map, beq_iff_eq]

theorem dictContains_insert_self (d : List (String × String)) (k v : String) :
    dictContains (dictInsert d k v) k = true := by
  unfold dictInsert
  split
  · rename_i h
    simp only [dictContains, List.any_eq_true] at h ⊢
    obtain ⟨p, hp, he⟩ := h
    exact ⟨(k, v), List.mem_map.2 ⟨p, hp, by rw [if_pos he]⟩, by simp⟩
  · simp only [dictContains, List.any_eq_true]
    exact ⟨(k, v), List.mem_append.2 (Or.inr (by simp)), by simp⟩

theorem dictContains_insert_mono (d : List (String × String)) (k v q : String)
    (h : dictContains d q = true) : dictContains (dictInsert d k v) q = true := by
  unfold dictInsert
  split
  · simp only [dictContains, List.any_eq_true] at h ⊢
    obtain ⟨p, hp, he⟩ := h
    by_cases hpk : (p.1 == k) = true
    · refine ⟨(k, v), List.mem_map.2 ⟨p, hp, by rw [if_pos hpk]⟩, ?_⟩
      simp only [beq_iff_eq] at he hpk ⊢
      rw [← hpk]; exact he
    · exact ⟨p, List.mem_map.2 ⟨p, hp, by rw [if_neg hpk]⟩, he⟩
  · simp only [dictContains, List.any_eq_true] at h ⊢
    obtain ⟨p, hp, he⟩ := h
    exact ⟨p, List.mem_append.2 (Or.inl hp), he⟩

theorem dictContains_insert_elim (d : List (String × String)) (k v q : String)
    (h : dictContains (dictInsert d k v) q = true) :
    dictContains d q = true ∨ q = k := by
  unfold dictInsert at h
  split at h
  · simp only [dictContains, List.any_eq_true] at h ⊢
    obtain ⟨p, hp, he⟩ := h
    obtain ⟨p0, hp0, hpe⟩ := List.mem_map.1 hp
    by_cases hpk : (p0.1 == k) = true
    · right
      rw [if_pos hpk] at hpe
      rw [← hpe] at he
      simp only [beq_iff_eq] at he
      exact he.symm
    · left
      rw [if_neg hpk] at hpe
      subst hpe
      exact ⟨p0, hp0, he⟩
  · simp only [dictContains, List.any_eq_true] at h ⊢
    obtain ⟨p, hp, he⟩ := h
    rcases List.mem_append.1 hp with hl | hr
    · exact Or.inl ⟨p, hl, he⟩
    · right
      simp only [List.mem_singleton] at hr
      subst hr
      simp only [beq_iff_eq] at he
      exact he.symm

theorem keys_insert_of_fresh (d : List (String × String)) (k v : String)
    (h : dictContains d k = false) :
    (dictInsert d k v).map Prod.fst = d.map Prod.fst ++ [k] := by
  unfold dictInsert
  rw [if_neg (by simp [h])]
  simp

/-! ### What one scan does to a single task -/

theorem StepRel.task_id_eq {f : Task → Except String String} {t t' : Task}
    (h : StepRel f t t') : t'.task_id = t.task_id := by
  rcases h with h | ⟨_, r, _, h⟩ <;> subst h <;> rfl

theorem StepRel.dependencies_eq {f : Task → Except String String} {t t' : Task}
    (h : StepRel f t t') : t'.dependencies = t.dependencies := by
  rcases h with h | ⟨_, r, _, h⟩ <;> subst h <;> rfl

theorem StepRel.of_completed {f : Task → Except String String} {t t' : Task}
    (h : StepRel f t t') (hc : t.status = "completed") : t' = t := by
  rcases h with h | ⟨hn, _⟩
  · exact h
  · exact absurd hc hn

theorem StepRel.status_back {f : Task → Except String String} {t t' : Task}
    (h : StepRel f t t') (hc : t'.status ≠ "completed") : t' = t := by
  rcases h with h | ⟨hn, r, _, h⟩
  · exact h
  · subst h; simp at hc

theorem StepRel.trans {f : Task → Except String String} {a b c : Task}
    (h1 : StepRel f a b) (h2 : StepRel f b c) : StepRel f a c := by
  rcases h1 with h1 | ⟨hn1, r1, hr1, h1⟩
  · subst h1; exact h2
  · subst h1
    rcases h2 with h2 | ⟨hn2, _⟩
    · subst h2; exact Or.inr ⟨hn1, r1, hr1, rfl⟩
    · simp at hn2

/-! ### Scan lemmas -/

/-- Core facts about a successful scan: each task evolves by `StepRel`,
the result keys only grow, and every new key is the id of a task that was
not `"completed"` when the scan started. -/
theorem scan_main (f : Task → Except String String) :
    ∀ (ts : List Task) (res : List (String × String)) (ts' : List Task)
      (res' : List (String × String)),
      scanTasks f ts res = .ok (ts', res') →
      List.Forall₂ (StepRel f) ts ts' ∧
      (∀ k, dictContains res k = true → dictContains res' k = true) ∧
      (∀ k, dictContains res' k = true →
        dictContains res k = true ∨ ∃ u ∈ ts, u.task_id = k ∧ u.status ≠ "completed") := by
  intro ts
  induction ts with
  | nil =>
    intro res ts' res' h
    simp only [scanTasks, Except.ok.injEq, Prod.mk.injEq] at h
    obtain ⟨h1, h2⟩ := h
    subst h1; subst h2
    exact ⟨List.Forall₂.nil, fun _ hk => hk, fun _ hk => Or.inl hk⟩
  | cons t ts ih =>
    intro res ts' res' h
    unfold scanTasks at h
    split at h
    · rename_i hpend
      split at h
      · rename_i hdeps
        split at h
        · cases h
        · rename_i r hft
          split at h
          · cases h
          · rename_i p ts2 res2 hrec
            simp only [Except.ok.injEq, Prod.mk.injEq] at h
            obtain ⟨h1, h2⟩ := h
            subst h1; subst h2
            obtain ⟨ihf, ihmono, ihnew⟩ := ih _ _ _ hrec
            refine ⟨List.Forall₂.cons (Or.inr ⟨by simpa using hpend, r, hft, rfl⟩) ihf,
              ?_, ?_⟩
            · intro k hk
              exact ihmono k (dictContains_insert_mono _ _ _ _ hk)
            · intro k hk
              rcases ihnew k hk with hk2 | ⟨u, hu, hid, hst⟩
              · rcases dictContains_insert_elim _ _ _ _ hk2 with hk3 | hk3
                · exact Or.inl hk3
                · exact Or.inr ⟨t, List.mem_cons_self _ _,
                    hk3.symm, by simpa using hpend⟩
              · exact Or.inr ⟨u, List.mem_cons_of_mem _ hu, hid, hst⟩
      · split at h
        · cases h
        · rename_i p ts2 res2 hrec
          simp only [Except.ok.injEq, Prod.mk.injEq] at h
          obtain ⟨h1, h2⟩ := h
          subst h1; subst h2
          obtain ⟨ihf, ihmono, ihnew⟩ := ih _ _ _ hrec
          refine ⟨List.Forall₂.cons (Or.inl rfl) ihf, ihmono, ?_⟩
          intro k hk
          rcases ihnew k hk with hk2 | ⟨u, hu, hid, hst⟩
          · exact Or.inl hk2
          · exact Or.inr ⟨u, List.mem_cons_of_mem _ hu, hid, hst⟩
    · rename_i hcomp
      split at h
      · cases h
      · rename_i p ts2 res2 hrec
        simp only [Except.ok.injEq, Prod.mk.injEq] at h
        obtain ⟨h1, h2⟩ := h
        subst h1; subst h2
        obtain ⟨ihf, ihmono, ihnew⟩ := ih _ _ _ hrec
        refine ⟨List.Forall₂.cons (Or.inl rfl) ihf, ihmono, ?_⟩
        intro k hk
        rcases ihnew k hk with hk2 | ⟨u, hu, hid, hst⟩
        · exact Or.inl hk2
        · exact Or.inr ⟨u, List.mem_cons_of_mem _ hu, hid, hst⟩

/-- A task that is not `"completed"` and whose dependencies are all keys
of the results dict when the scan starts is executed by that scan: it
ends the scan `"completed"` and its id is a key of the scan's results. -/
theorem scan_exec (f : Task → Except String String) :
    ∀ (ts : List Task) (res : List (String × String)) (ts' : List Task)
      (res' : List (String × String)),
      scanTasks f ts res = .ok (ts', res') →
      ∀ i (hi : i < ts.length) (hi' : i < ts'.length),
        (ts.get ⟨i, hi⟩).status ≠ "completed" →
        (∀ d ∈ (ts.get ⟨i, hi⟩).dependencies, dictContains res d = true) →
        (ts'.get ⟨i, hi'⟩).status = "completed" ∧
          dictContains res' (ts.get ⟨i, hi⟩).task_id = true := by
  intro ts
  induction ts with
  | nil =>
    intro res ts' res' h i hi
    exact absurd hi (by simp)
  | cons t ts ih =>
    intro res ts' res' h i hi hi' hpend hdeps
    unfold scanTasks at h
    split at h
    · rename_i hpend0
      split at h
      · rename_i hdeps0
        split at h
        · cases h
        · rename_i r hft
          split at h
          · cases h
          · rename_i p ts2 res2 hrec
            simp only [Except.ok.injEq, Prod.mk.injEq] at h
            obtain ⟨h1, h2⟩ := h
            subst h1; subst h2
            cases i with
            | zero =>
              refine ⟨rfl, ?_⟩
              exact (scan_main f _ _ _ _ hrec).2.1 _
                (dictContains_insert_self _ _ _)
            | succ j =>
              have hj : j < ts.length := by simpa using hi
              have hj' : j < ts2.length := by simpa using hi'
              have := ih (dictInsert res t.task_id r) ts2 res2 hrec j hj hj'
                (by simpa using hpend)
                (by
                  intro d hd
                  exact dictContains_insert_mono _ _ _ _
                    (hdeps d (by simpa using hd)))
              simpa using this
      · rename_i hdeps0
        cases i with
        | zero =>
          exact absurd (List.all_eq_true.2 fun d hd => hdeps d hd) hdeps0
        | succ j =>
          split at h
          · cases h
          · rename_i p ts2 res2 hrec
            simp only [Except.ok.injEq, Prod.mk.injEq] at h
            obtain ⟨h1, h2⟩ := h
            subst h1; subst h2
            have hj : j < ts.length := by simpa using hi
            have hj' : j < ts2.length := by simpa using hi'
            have := ih res ts2 res2 hrec j hj hj'
              (by simpa using hpend) (by
                intro d hd
                exact hdeps d (by simpa using hd))
            simpa using this
    · rename_i hcomp
      cases i with
      | zero =>
        simp only [bne_iff_ne, ne_eq, Decidable.not_not] at hcomp
        exact absurd hcomp hpend
      | succ j =>
        split at h
        · cases h
        · rename_i p ts2 res2 hrec
          simp only [Except.ok.injEq, Prod.mk.injEq] at h
          obtain ⟨h1, h2⟩ := h
          subst h1; subst h2
          have hj : j < ts.length := by simpa using hi
          have hj' : j < ts2.length := by simpa using hi'
          have := ih res ts2 res2 hrec j hj hj'
            (by simpa using hpend) (by
              intro d hd
              exact hdeps d (by simpa using hd))
          simpa using this

/-- A task that flips to `"completed"` during a scan has its id inserted
into the results dict by that scan. -/
theorem scan_changed_key (f : Task → Except String String) :
    ∀ (ts : List Task) (res : List (String × String)) (ts' : List Task)
      (res' : List (String × String)),
      scanTasks f ts res = .ok (ts', res') →
      ∀ i (hi : i < ts.length) (hi' : i < ts'.length),
        (ts.get ⟨i, hi⟩).status ≠ "completed" →
        (ts'.get ⟨i, hi'⟩).status = "completed" →
        dictContains res' (ts.get ⟨i, hi⟩).task_id = true := by
  intro ts
  induction ts with
  | nil =>
    intro res ts' res' h i hi
    exact absurd hi (by simp)
  | cons t ts ih =>
    intro res ts' res' h i hi hi' hpend hdone
    unfold scanTasks at h
    split at h
    · rename_i hpend0
      split at h
      · rename_i hdeps0
        split at h
        · cases h
        · rename_i r hft
          split at h
          · cases h
          · rename_i p ts2 res2 hrec
            simp only [Except.ok.injEq, Prod.mk.injEq] at h
            obtain ⟨h1, h2⟩ := h
            subst h1; subst h2
            cases i with
            | zero =>
              exact (scan_main f _ _ _ _ hrec).2.1 _
                (dictContains_insert_self _ _ _)
            | succ j =>
              have hj : j < ts.length := by simpa using hi
              have hj' : j < ts2.length := by simpa using hi'
              have := ih (dictInsert res t.task_id r) ts2 res2 hrec j hj hj'
                (by simpa using hpend) (by simpa using hdone)
              simpa using this
      · rename_i hdeps0
        split at h
        · cases h
        · rename_i p ts2 res2 hrec
          simp only [Except.ok.injEq, Prod.mk.injEq] at h
          obtain ⟨h1, h2⟩ := h
          subst h1; subst h2
          cases i with
          | zero =>
            exact absurd hdone hpend
          | succ j =>
            have hj : j < ts.length := by simpa using hi
            have hj' : j < ts2.length := by simpa using hi'
            have := ih res ts2 res2 hrec j hj hj'
              (by simpa using hpend) (by simpa using hdone)
            simpa using this
    · rename_i hcomp
      cases i with
      | zero =>
        simp only [bne_iff_ne, ne_eq, Decidable.not_not] at hcomp
        exact absurd hcomp hpend
      | succ j =>
        split at h
        · cases h
        · rename_i p ts2 res2 hrec
          simp only [Except.ok.injEq, Prod.mk.injEq] at h
          obtain ⟨h1, h2⟩ := h
          subst h1; subst h2
          have hj : j < ts.length := by simpa using hi
          have hj' : j < ts2.length := by simpa using hi'
          have := ih res ts2 res2 hrec j hj hj'
            (by simpa using hpend) (by simpa using hdone)
          simpa using this

/-- When every `execute_task` call returns normally, a scan never raises. -/
theorem scan_ok_of_exec_ok (f : Task → Except String String)
    (hf : ∀ t, ∃ r, f t = .ok r) :
    ∀ (ts : List Task) (res : List (String × String)),
      ∃ ts' res', scanTasks f ts res = .ok (ts', res') := by
  intro ts
  induction ts with
  | nil => intro res; exact ⟨[], res, rfl⟩
  | cons t ts ih =>
    intro res
    unfold scanTasks
    split
    · split
      · obtain ⟨r, hr⟩ := hf t
        obtain ⟨ts', res', hrec⟩ := ih (dictInsert res t.task_id r)
        simp only [hr, hrec]
        exact ⟨_, _, rfl⟩
      · obtain ⟨ts', res', hrec⟩ := ih res
        simp only [hrec]
        exact ⟨_, _, rfl⟩
    · obtain ⟨ts', res', hrec⟩ := ih res
      simp only [hrec]
      exact ⟨_, _, rfl⟩

/-! ### Progress and termination machinery -/

theorem pendCount_le_of_forall2 {f : Task → Except String String}
    {a b : List Task} (h : List.Forall₂ (StepRel f) a b) :
    pendCount b ≤ pendCount a := by
  induction h with
  | nil => exact Nat.le_refl 0
  | cons hxy hl ihAll =>
    rename_i x y l1 l2
    simp only [pendCount, List.countP_cons]
    refine Nat.add_le_add ihAll ?_
    by_cases hy : (y.status != "completed") = true
    · have hyx := StepRel.status_back hxy (by simpa [bne_iff_ne] using hy)
      subst hyx
      exact Nat.le_refl _
    · simp only [Bool.not_eq_true] at hy
      simp [hy]

theorem pendCount_lt_of_forall2 {f : Task → Except String String}
    {a b : List Task} (h : List.Forall₂ (StepRel f) a b) :
    ∀ i (hia : i < a.length) (hib : i < b.length),
      (a.get ⟨i, hia⟩).status ≠ "completed" →
      (b.get ⟨i, hib⟩).status = "completed" →
      pendCount b < pendCount a := by
  induction h with
  | nil =>
    intro i hia
    exact absurd hia (by simp)
  | cons hxy hl ihAll =>
    rename_i x y l1 l2
    intro i hia hib hpend hdone
    cases i with
    | zero =>
      have hpend0 : x.status ≠ "completed" := hpend
      have hdone0 : y.status = "completed" := hdone
      simp only [pendCount, List.countP_cons]
      have h1 : pendCount l2 ≤ pendCount l1 := pendCount_le_of_forall2 hl
      simp only [pendCount] at h1
      have hx : (x.status != "completed") = true := bne_iff_ne.2 hpend0
      have hy : (y.status != "completed") = false := by simp [hdone0]
      have e1 : (if (x.status != "completed") = true then (1 : Nat) else 0) = 1 := by
        rw [hx]; rfl
      have e2 : (if (y.status != "completed") = true then (1 : Nat) else 0) = 0 := by
        rw [hy]; rfl
      omega
    | succ j =>
      have hj1 : j < l1.length := by simpa using hia
      have hj2 : j < l2.length := by simpa using hib
      have hstrict := ihAll j hj1 hj2 (by simpa using hpend) (by simpa using hdone)
      simp only [pendCount, List.countP_cons]
      have hhead : (if (y.status != "completed") = true then 1 else 0) ≤
          (if (x.status != "completed") = true then 1 else 0) := by
        by_cases hy : (y.status != "completed") = true
        · have hyx := StepRel.status_back hxy (by simpa [bne_iff_ne] using hy)
          subst hyx
          exact Nat.le_refl _
        · simp only [Bool.not_eq_true] at hy
          simp [hy]
      simp only [pendCount] at hstrict
      omega

/-- Every nonempty list has an element minimizing a `Nat`-valued map. -/
theorem exists_min_image {α : Type} (g : α → Nat) :
    ∀ (l : List α), l ≠ [] → ∃ a ∈ l, ∀ b ∈ l, g a ≤ g b := by
  intro l
  induction l with
  | nil => intro h; exact absurd rfl h
  | cons x xs ih =>
    intro _
    by_cases hxs : xs = []
    · subst hxs
      refine ⟨x, List.mem_cons_self _ _, ?_⟩
      intro b hb
      rcases List.mem_cons.1 hb with hb | hb
      · subst hb; exact Nat.le_refl _
      · exact absurd hb (by simp)
    · obtain ⟨a, ha, hmin⟩ := ih hxs
      by_cases hle : g a ≤ g x
      · refine ⟨a, List.mem_cons_of_mem _ ha, ?_⟩
        intro b hb
        rcases List.mem_cons.1 hb with hb | hb
        · subst hb; exact hle
        · exact hmin b hb
      · refine ⟨x, List.mem_cons_self _ _, ?_⟩
        intro b hb
        rcases List.mem_cons.1 hb with hb | hb
        · subst hb; exact Nat.le_refl _
        · exact Nat.le_trans (Nat.le_of_not_le hle) (hmin b hb)

theorem forall2_preserves_depsExist {f : Task → Except String String}
    {a b : List Task} (h : List.Forall₂ (StepRel f) a b)
    (hd : DepsExist a) : DepsExist b := by
  intro t' ht' d hd'
  obtain ⟨⟨i, hib⟩, hget⟩ := List.mem_iff_get.1 ht'
  have hlen := h.length_eq
  have hia : i < a.length := by omega
  have hrel := h.get hia hib
  have hdeps : t'.dependencies = (a.get ⟨i, hia⟩).dependencies := by
    rw [← hget]; exact hrel.dependencies_eq
  obtain ⟨u, hu, huid⟩ := hd (a.get ⟨i, hia⟩) (List.get_mem _ _ _) d (by
    rw [← hdeps]; exact hd')
  obtain ⟨⟨i2, hi2⟩, hgu⟩ := List.mem_iff_get.1 hu
  have hi2b : i2 < b.length := by omega
  have hrel2 := h.get hi2 hi2b
  refine ⟨b.get ⟨i2, hi2b⟩, List.get_mem _ _ _, ?_⟩
  rw [hrel2.task_id_eq, hgu, huid]

theorem forall2_preserves_ranked {f : Task → Except String String}
    {rank : String → Nat} {a b : List Task}
    (h : List.Forall₂ (StepRel f) a b) (hr : Ranked rank a) : Ranked rank b := by
  intro t' ht' d hd'
  obtain ⟨⟨i, hib⟩, hget⟩ := List.mem_iff_get.1 ht'
  have hlen := h.length_eq
  have hia : i < a.length := by omega
  have hrel := h.get hia hib
  have hdeps : t'.dependencies = (a.get ⟨i, hia⟩).dependencies := by
    rw [← hget]; exact hrel.dependencies_eq
  have hid : t'.task_id = (a.get ⟨i, hia⟩).task_id := by
    rw [← hget]; exact hrel.task_id_eq
  rw [hid]
  exact hr (a.get ⟨i, hia⟩) (List.get_mem _ _ _) d (by rw [← hdeps]; exact hd')

theorem scan_preserves_compKeys {f : Task → Except String String}
    {ts : List Task} {res : List (String × String)} {ts' : List Task}
    {res' : List (String × String)}
    (h : scanTasks f ts res = .ok (ts', res'))
    (hck : CompKeys ts res) : CompKeys ts' res' := by
  obtain ⟨hfor, hmono, _⟩ := scan_main f _ _ _ _ h
  intro t' ht' hst
  obtain ⟨⟨i, hib⟩, hget⟩ := List.mem_iff_get.1 ht'
  have hlen := hfor.length_eq
  have hia : i < ts.length := by omega
  have hrel := hfor.get hia hib
  have hid : t'.task_id = (ts.get ⟨i, hia⟩).task_id := by
    rw [← hget]; exact hrel.task_id_eq
  by_cases hc : (ts.get ⟨i, hia⟩).status = "completed"
  · rw [hid]
    exact hmono _ (hck (ts.get ⟨i, hia⟩) (List.get_mem _ _ _) hc)
  · rw [hid]
    exact scan_changed_key f ts res ts' res' h i hia hib hc
      (by rw [hget]; exact hst)

/-- When the dependency graph is ranked (acyclic), every dependency names
a task of the plan, every completed task's id is already a key, and some
task is still unfinished, a scan with an always-returning executor
strictly decreases the number of unfinished tasks. -/
theorem scan_progress (f : Task → Except String String)
    (hf : ∀ t, ∃ r, f t = .ok r) (rank : String → Nat)
    (ts : List Task) (res : List (String × String))
    (hd : DepsExist ts) (hr : Ranked rank ts) (hck : CompKeys ts res)
    (hpend : allCompleted ts = false) :
    ∃ ts' res', scanTasks f ts res = .ok (ts', res') ∧
      pendCount ts' < pendCount ts := by
  obtain ⟨ts', res', hscan⟩ := scan_ok_of_exec_ok f hf ts res
  refine ⟨ts', res', hscan, ?_⟩
  have hex : ∃ t ∈ ts, ¬ t.status = "completed" := by
    by_contra hall
    push_neg at hall
    have : allCompleted ts = true :=
      List.all_eq_true.2 (fun t ht => beq_iff_eq.2 (hall t ht))
    rw [this] at hpend
    cases hpend
  obtain ⟨t1, ht1, ht1p⟩ := hex
  have hpne : ts.filter (fun t => t.status != "completed") ≠ [] :=
    List.ne_nil_of_mem (List.mem_filter.2 ⟨ht1, bne_iff_ne.2 ht1p⟩)
  obtain ⟨t0, ht0p, hmin⟩ :=
    exists_min_image (fun t => rank t.task_id) _ hpne
  obtain ⟨ht0, ht0pend⟩ := List.mem_filter.1 ht0p
  have hdeps0 : ∀ d ∈ t0.dependencies, dictContains res d = true := by
    intro d hd0
    obtain ⟨u, hu, huid⟩ := hd t0 ht0 d hd0
    by_cases huc : u.status = "completed"
    · rw [← huid]
      exact hck u hu huc
    · exfalso
      have hup : u ∈ ts.filter (fun t => t.status != "completed") :=
        List.mem_filter.2 ⟨hu, bne_iff_ne.2 huc⟩
      have hge := hmin u hup
      have hlt := hr t0 ht0 d hd0
      rw [huid] at hge
      omega
  obtain ⟨⟨i, hia⟩, hgi⟩ := List.mem_iff_get.1 ht0
  have hfor := (scan_main f _ _ _ _ hscan).1
  have hlen := hfor.length_eq
  have hib : i < ts'.length := by omega
  have hexec := scan_exec f ts res ts' res' hscan i hia hib
    (by rw [hgi]; exact bne_iff_ne.1 ht0pend)
    (by rw [hgi]; exact hdeps0)
  exact pendCount_lt_of_forall2 hfor i hia hib
    (by rw [hgi]; exact bne_iff_ne.1 ht0pend) hexec.1

/-- With an always-returning executor and a ranked (acyclic) dependency
graph whose dependencies all name tasks of the plan, `pendCount ts` scans
of fuel suffice: the loop exits with every task `"completed"`. -/
theorem runLoop_terminates (f : Task → Except String String)
    (hf : ∀ t, ∃ r, f t = .ok r) (rank : String → Nat) :
    ∀ (fuel : Nat) (ts : List Task) (res : List (String × String)),
      DepsExist ts → Ranked rank ts → CompKeys ts res → pendCount ts ≤ fuel →
      ∃ ts' res', runLoop f fuel ts res = some (.ok (ts', res')) ∧
        allCompleted ts' = true := by
  intro fuel
  induction fuel with
  | zero =>
    intro ts res hd hr hck hle
    have hall : allCompleted ts = true := by
      have h0 : pendCount ts = 0 := Nat.le_zero.1 hle
      unfold pendCount at h0
      rw [List.countP_eq_zero] at h0
      refine List.all_eq_true.2 ?_
      intro t ht
      have h1 := h0 t ht
      simp only [bne_iff_ne, ne_eq, Decidable.not_not] at h1
      exact beq_iff_eq.2 h1
    exact ⟨ts, res, by simp [runLoop, hall], hall⟩
  | succ n ih =>
    intro ts res hd hr hck hle
    by_cases hall : allCompleted ts = true
    · exact ⟨ts, res, by simp [runLoop, hall], hall⟩
    · have hfalse : allCompleted ts = false := by
        simpa [Bool.not_eq_true] using hall
      obtain ⟨ts', res', hscan, hlt⟩ :=
        scan_progress f hf rank ts res hd hr hck hfalse
      have hfor := (scan_main f _ _ _ _ hscan).1
      obtain ⟨tsf, resf, hrun, hallf⟩ := ih ts' res'
        (forall2_preserves_depsExist hfor hd)
        (forall2_preserves_ranked hfor hr)
        (scan_preserves_compKeys hscan hck)
        (by omega)
      exact ⟨tsf, resf, by simp [runLoop, hfalse, hscan, hrun], hallf⟩

/-! ### Loop-level lemmas -/

theorem forall2_steprel_refl {f : Task → Except String String}
    (ts : List Task) : List.Forall₂ (StepRel f) ts ts :=
  List.forall₂_same.2 (fun _ _ => Or.inl rfl)

theorem forall2_steprel_trans {f : Task → Except String String} :
    ∀ {a b c : List Task}, List.Forall₂ (StepRel f) a b →
      List.Forall₂ (StepRel f) b c → List.Forall₂ (StepRel f) a c := by
  intro a b c h1
  induction h1 generalizing c with
  | nil => intro h2; exact h2
  | cons hxy h1' ih =>
    intro h2
    cases h2 with
    | cons hyz h2' => exact List.Forall₂.cons (hxy.trans hyz) (ih h2')

theorem forall2_pending_back {f : Task → Except String String}
    {a b : List Task} (h : List.Forall₂ (StepRel f) a b) :
    ∀ u ∈ b, u.status ≠ "completed" → u ∈ a := by
  intro u hu hp
  obtain ⟨⟨i, hib⟩, hget⟩ := List.mem_iff_get.1 hu
  have hlen := h.length_eq
  have hia : i < a.length := by omega
  have hrel := h.get hia hib
  have : b.get ⟨i, hib⟩ = a.get ⟨i, hia⟩ :=
    hrel.status_back (by rw [hget]; exact hp)
  rw [← hget, this]
  exact List.get_mem _ _ _

/-- A `some (.ok ...)` exit of the loop means the `while` condition
became false: every task is `"completed"`. -/
theorem runLoop_ok_allCompleted (f : Task → Except String String) :
    ∀ (fuel : Nat) (ts : List Task) (res : List (String × String))
      (tsf : List Task) (resf : List (String × String)),
      runLoop f fuel ts res = some (.ok (tsf, resf)) →
      allCompleted tsf = true := by
  intro fuel
  induction fuel with
  | zero =>
    intro ts res tsf resf h
    unfold runLoop at h
    split at h
    · rename_i hall
      simp only [Option.some.injEq, Except.ok.injEq, Prod.mk.injEq] at h
      obtain ⟨h1, h2⟩ := h
      subst h1
      exact hall
    · cases h
  | succ n ih =>
    intro ts res tsf resf h
    unfold runLoop at h
    split at h
    · rename_i hall
      simp only [Option.some.injEq, Except.ok.injEq, Prod.mk.injEq] at h
      obtain ⟨h1, h2⟩ := h
      subst h1
      exact hall
    · split at h
      · simp at h
      · rename_i p ts2 res2 hscan
        exact ih _ _ _ _ h

/-- Across the whole loop each task either stays unchanged or takes the
single step from a non-`"completed"` status to `"completed"` with an
execution result stored. -/
theorem runLoop_forall2 (f : Task → Except String String) :
    ∀ (fuel : Nat) (ts : List Task) (res : List (String × String))
      (tsf : List Task) (resf : List (String × String)),
      runLoop f fuel ts res = some (.ok (tsf, resf)) →
      List.Forall₂ (StepRel f) ts tsf := by
  intro fuel
  induction fuel with
  | zero =>
    intro ts res tsf resf h
    unfold runLoop at h
    split at h
    · simp only [Option.some.injEq, Except.ok.injEq, Prod.mk.injEq] at h
      obtain ⟨h1, h2⟩ := h
      subst h1
      exact forall2_steprel_refl ts
    · cases h
  | succ n ih =>
    intro ts res tsf resf h
    unfold runLoop at h
    split at h
    · simp only [Option.some.injEq, Except.ok.injEq, Prod.mk.injEq] at h
      obtain ⟨h1, h2⟩ := h
      subst h1
      exact forall2_steprel_refl ts
    · split at h
      · simp at h
      · rename_i p ts2 res2 hscan
        exact forall2_steprel_trans (scan_main f _ _ _ _ hscan).1 (ih _ _ _ _ h)

/-- Keys of the results dict only accumulate across the loop. -/
theorem runLoop_keys_mono (f : Task → Except String String) :
    ∀ (fuel : Nat) (ts : List Task) (res : List (String × String))
      (tsf : List Task) (resf : List (String × String)),
      runLoop f fuel ts res = some (.ok (tsf, resf)) →
      ∀ k, dictContains res k = true → dictContains resf k = true := by
  intro fuel
  induction fuel with
  | zero =>
    intro ts res tsf resf h k hk
    unfold runLoop at h
    split at h
    · simp only [Option.some.injEq, Except.ok.injEq, Prod.mk.injEq] at h
      obtain ⟨h1, h2⟩ := h
      subst h2
      exact hk
    · cases h
  | succ n ih =>
    intro ts res tsf resf h k hk
    unfold runLoop at h
    split at h
    · simp only [Option.some.injEq, Except.ok.injEq, Prod.mk.injEq] at h
      obtain ⟨h1, h2⟩ := h
      subst h2
      exact hk
    · split at h
      · simp at h
      · rename_i p ts2 res2 hscan
        exact ih _ _ _ _ h k ((scan_main f _ _ _ _ hscan).2.1 k hk)

/-- Every key of the final results dict is either an initial key or the
id of a task that was not `"completed"` when the loop started. -/
theorem runLoop_new_keys (f : Task → Except String String) :
    ∀ (fuel : Nat) (ts : List Task) (res : List (String × String))
      (tsf : List Task) (resf : List (String × String)),
      runLoop f fuel ts res = some (.ok (tsf, resf)) →
      ∀ k, dictContains resf k = true →
        dictContains res k = true ∨
          ∃ u ∈ ts, u.task_id = k ∧ u.status ≠ "completed" := by
  intro fuel
  induction fuel with
  | zero =>
    intro ts res tsf resf h k hk
    unfold runLoop at h
    split at h
    · simp only [Option.some.injEq, Except.ok.injEq, Prod.mk.injEq] at h
      obtain ⟨h1, h2⟩ := h
      subst h2
      exact Or.inl hk
    · cases h
  | succ n ih =>
    intro ts res tsf resf h k hk
    unfold runLoop at h
    split at h
    · simp only [Option.some.injEq, Except.ok.injEq, Prod.mk.injEq] at h
      obtain ⟨h1, h2⟩ := h
      subst h2
      exact Or.inl hk
    · split at h
      · simp at h
      · rename_i p ts2 res2 hscan
        rcases ih _ _ _ _ h k hk with hk2 | ⟨u, hu, hid, hst⟩
        · exact (scan_main f _ _ _ _ hscan).2.2 k hk2
        · exact Or.inr ⟨u, forall2_pending_back (scan_main f _ _ _ _ hscan).1 u hu hst,
            hid, hst⟩

/-- `CompKeys` is an invariant of the whole loop. -/
theorem runLoop_compKeys (f : Task → Except String String) :
    ∀ (fuel : Nat) (ts : List Task) (res : List (String × String))
      (tsf : List Task) (resf : List (String × String)),
      runLoop f fuel ts res = some (.ok (tsf, resf)) →
      CompKeys ts res → CompKeys tsf resf := by
  intro fuel
  induction fuel with
  | zero =>
    intro ts res tsf resf h hck
    unfold runLoop at h
    split at h
    · simp only [Option.some.injEq, Except.ok.injEq, Prod.mk.injEq] at h
      obtain ⟨h1, h2⟩ := h
      subst h1; subst h2
      exact hck
    · cases h
  | succ n ih =>
    intro ts res tsf resf h hck
    unfold runLoop at h
    split at h
    · simp only [Option.some.injEq, Except.ok.injEq, Prod.mk.injEq] at h
      obtain ⟨h1, h2⟩ := h
      subst h1; subst h2
      exact hck
    · split at h
      · simp at h
      · rename_i p ts2 res2 hscan
        exact ih _ _ _ _ h (scan_preserves_compKeys hscan hck)

/-- A task that started the loop not `"completed"` and ended it
`"completed"` has its id among the final results keys. -/
theorem runLoop_executed_key (f : Task → Except String String) :
    ∀ (fuel : Nat) (ts : List Task) (res : List (String × String))
      (tsf : List Task) (resf : List (String × String)),
      runLoop f fuel ts res = some (.ok (tsf, resf)) →
      ∀ i (hi : i < ts.length) (hif : i < tsf.length),
        (ts.get ⟨i, hi⟩).status ≠ "completed" →
        (tsf.get ⟨i, hif⟩).status = "completed" →
        dictContains resf (ts.get ⟨i, hi⟩).task_id = true := by
  intro fuel
  induction fuel with
  | zero =>
    intro ts res tsf resf h i hi hif hpend hdone
    unfold runLoop at h
    split at h
    · simp only [Option.some.injEq, Except.ok.injEq, Prod.mk.injEq] at h
      obtain ⟨h1, h2⟩ := h
      subst h1
      exact absurd hdone hpend
    · cases h
  | succ n ih =>
    intro ts res tsf resf h i hi hif hpend hdone
    unfold runLoop at h
    split at h
    · simp only [Option.some.injEq, Except.ok.injEq, Prod.mk.injEq] at h
      obtain ⟨h1, h2⟩ := h
      subst h1
      exact absurd hdone hpend
    · split at h
      · simp at h
      · rename_i p ts2 res2 hscan
        have hlen2 : ts.length = ts2.length := (scan_main f _ _ _ _ hscan).1.length_eq
        have hi2 : i < ts2.length := by omega
        by_cases hc : (ts2.get ⟨i, hi2⟩).status = "completed"
        · have hkey := scan_changed_key f ts res ts2 res2 hscan i hi hi2 hpend hc
          exact runLoop_keys_mono f n ts2 res2 tsf resf h _ hkey
        · have hback := ((scan_main f _ _ _ _ hscan).1.get hi hi2).status_back hc
          have := ih ts2 res2 tsf resf h i hi2 hif hc hdone
          rw [hback] at this
          exact this

/-! ### Key uniqueness machinery -/

theorem scan_preserves_freshNodup (f : Task → Except String String) :
    ∀ (ts : List Task) (res : List (String × String)) (ts' : List Task)
      (res' : List (String × String)),
      scanTasks f ts res = .ok (ts', res') →
      (ts.map Task.task_id).Nodup →
      Fresh ts res → (res.map Prod.fst).Nodup →
      Fresh ts' res' ∧ (res'.map Prod.fst).Nodup := by
  intro ts
  induction ts with
  | nil =>
    intro res ts' res' h hnd hfr hkn
    simp only [scanTasks, Except.ok.injEq, Prod.mk.injEq] at h
    obtain ⟨h1, h2⟩ := h
    subst h1; subst h2
    exact ⟨fun t ht => absurd ht (by simp), hkn⟩
  | cons t ts ih =>
    intro res ts' res' h hnd hfr hkn
    have hnd0 : (List.map Task.task_id (t :: ts)).Nodup := hnd
    rw [List.map_cons, List.nodup_cons] at hnd0
    have hndt : (ts.map Task.task_id).Nodup := hnd0.2
    have htts : t.task_id ∉ ts.map Task.task_id := hnd0.1
    unfold scanTasks at h
    split at h
    · rename_i hpend0
      have hpend : t.status ≠ "completed" := bne_iff_ne.1 hpend0
      split at h
      · rename_i hdeps0
        split at h
        · cases h
        · rename_i r hft
          split at h
          · cases h
          · rename_i p ts2 res2 hrec
            simp only [Except.ok.injEq, Prod.mk.injEq] at h
            obtain ⟨h1, h2⟩ := h
            subst h1; subst h2
            have hfresh0 : dictContains res t.task_id = false :=
              hfr t (List.mem_cons_self _ _) hpend
            have hkeys2 : (dictInsert res t.task_id r).map Prod.fst =
                res.map Prod.fst ++ [t.task_id] :=
              keys_insert_of_fresh _ _ _ hfresh0
            have hkn2 : ((dictInsert res t.task_id r).map Prod.fst).Nodup := by
              rw [hkeys2]
              rw [List.nodup_append]
              refine ⟨hkn, List.nodup_singleton _, ?_⟩
              intro a ha hb
              simp only [List.mem_singleton] at hb
              subst hb
              exact absurd ((dictContains_iff_mem _ _).2 ha)
                (by simp [hfresh0])
            have hfr2 : Fresh ts (dictInsert res t.task_id r) := by
              intro u hu hup
              cases hcon : dictContains (dictInsert res t.task_id r) u.task_id with
              | false => rfl
              | true =>
                exfalso
                rcases dictContains_insert_elim _ _ _ _ hcon with hc | hc
                · have := hfr u (List.mem_cons_of_mem _ hu) hup
                  rw [this] at hc
                  cases hc
                · exact htts (hc ▸ List.mem_map_of_mem Task.task_id hu)
            obtain ⟨ihfr, ihkn⟩ := ih _ _ _ hrec hndt hfr2 hkn2
            refine ⟨?_, ihkn⟩
            intro u hu hup
            rcases List.mem_cons.1 hu with hu | hu
            · subst hu
              simp at hup
            · exact ihfr u hu hup
      · rename_i hdeps0
        split at h
        · cases h
        · rename_i p ts2 res2 hrec
          simp only [Except.ok.injEq, Prod.mk.injEq] at h
          obtain ⟨h1, h2⟩ := h
          subst h1; subst h2
          have hfr2 : Fresh ts res := fun u hu hup =>
            hfr u (List.mem_cons_of_mem _ hu) hup
          obtain ⟨ihfr, ihkn⟩ := ih _ _ _ hrec hndt hfr2 hkn
          refine ⟨?_, ihkn⟩
          intro u hu hup
          rcases List.mem_cons.1 hu with hu | hu
          · subst hu
            cases hcon : dictContains res2 u.task_id with
            | false => rfl
            | true =>
              exfalso
              rcases (scan_main f _ _ _ _ hrec).2.2 _ hcon with hc | ⟨w, hw, hwid, hwst⟩
              · have := hfr u (List.mem_cons_self _ _) hup
                rw [this] at hc
                cases hc
              · exact htts (hwid ▸ List.mem_map_of_mem Task.task_id hw)
          · exact ihfr u hu hup
    · rename_i hcomp0
      have hcomp : t.status = "completed" := by
        simpa [bne_iff_ne, Decidable.not_not] using hcomp0
      split at h
      · cases h
      · rename_i p ts2 res2 hrec
        simp only [Except.ok.injEq, Prod.mk.injEq] at h
        obtain ⟨h1, h2⟩ := h
        subst h1; subst h2
        have hfr2 : Fresh ts res := fun u hu hup =>
          hfr u (List.mem_cons_of_mem _ hu) hup
        obtain ⟨ihfr, ihkn⟩ := ih _ _ _ hrec hndt hfr2 hkn
        refine ⟨?_, ihkn⟩
        intro u hu hup
        rcases List.mem_cons.1 hu with hu | hu
        · subst hu
          exact absurd hcomp hup
        · exact ihfr u hu hup

theorem runLoop_preserves_freshNodup (f : Task → Except String String) :
    ∀ (fuel : Nat) (ts : List Task) (res : List (String × String))
      (tsf : List Task) (resf : List (String × String)),
      runLoop f fuel ts res = some (.ok (tsf, resf)) →
      (ts.map Task.task_id).Nodup →
      Fresh ts res → (res.map Prod.fst).Nodup →
      (resf.map Prod.fst).Nodup := by
  intro fuel
  induction fuel with
  | zero =>
    intro ts res tsf resf h hnd hfr hkn
    unfold runLoop at h
    split at h
    · simp only [Option.some.injEq, Except.ok.injEq, Prod.mk.injEq] at h
      obtain ⟨h1, h2⟩ := h
      subst h2
      exact hkn
    · cases h
  | succ n ih =>
    intro ts res tsf resf h hnd hfr hkn
    unfold runLoop at h
    split at h
    · simp only [Option.some.injEq, Except.ok.injEq, Prod.mk.injEq] at h
      obtain ⟨h1, h2⟩ := h
      subst h2
      exact hkn
    · split at h
      · simp at h
      · rename_i p ts2 res2 hscan
        obtain ⟨hfr2, hkn2⟩ := scan_preserves_freshNodup f ts res ts2 res2 hscan hnd hfr hkn
        have hnd2 : (ts2.map Task.task_id).Nodup := by
          have hfor := (scan_main f _ _ _ _ hscan).1
          have : ts2.map Task.task_id = ts.map Task.task_id := by
            refine List.ext_get (by simpa using hfor.length_eq.symm) ?_
            intro i h1 h2
            simp only [List.get_map]
            exact (hfor.get (by simpa using h2) (by simpa using h1)).task_id_eq
          rw [this]
          exact hnd
        exact ih ts2 res2 tsf resf h hnd2 hfr2 hkn2

/-! ### Trace lemmas -/

theorem scanTasksT_fst (f : Task → Except String String) :
    ∀ (ts : List Task) (res : List (String × String)),
      (scanTasksT f ts res).1 = scanTasks f ts res := by
  intro ts
  induction ts with
  | nil => intro res; rfl
  | cons t ts ih =>
    intro res
    unfold scanTasksT scanTasks
    split
    · split
      · split
        · rename_i e hft
          simp
        · rename_i r hft
          have hrw := ih (dictInsert res t.task_id r)
          split
          · rename_i e tr hrec
            rw [hrec] at hrw
            simp [← hrw]
          · rename_i q ts2 res2 tr hrec
            rw [hrec] at hrw
            simp [← hrw]
      · have hrw := ih res
        split
        · rename_i e tr hrec
          rw [hrec] at hrw
          simp [← hrw]
        · rename_i q ts2 res2 tr hrec
          rw [hrec] at hrw
          simp [← hrw]
    · have hrw := ih res
      split
      · rename_i e tr hrec
        rw [hrec] at hrw
        simp [← hrw]
      · rename_i q ts2 res2 tr hrec
        rw [hrec] at hrw
        simp [← hrw]

/-- Guard facts: `execute_task` is only ever invoked on a task whose
status is not `"completed"` and whose dependencies all appear as keys of
the results dict passed to the invocation. -/
theorem scanTasksT_guard (f : Task → Except String String) :
    ∀ (ts : List Task) (res : List (String × String)),
      ∀ p ∈ (scanTasksT f ts res).2,
        p.1.status ≠ "completed" ∧
        p.1.dependencies.all (fun d => dictContains p.2 d) = true := by
  intro ts
  induction ts with
  | nil => intro res p hp; exact absurd hp (by simp [scanTasksT])
  | cons t ts ih =>
    intro res p hp
    unfold scanTasksT at hp
    split at hp
    · rename_i hpend0
      split at hp
      · rename_i hdeps0
        split at hp
        · rename_i e hft
          simp only [List.mem_singleton] at hp
          subst hp
          exact ⟨bne_iff_ne.1 hpend0, hdeps0⟩
        · rename_i r hft
          split at hp
          · rename_i e tr hrec
            simp only [List.mem_cons] at hp
            rcases hp with hp | hp
            · subst hp
              exact ⟨bne_iff_ne.1 hpend0, hdeps0⟩
            · have := ih (dictInsert res t.task_id r) p
              rw [hrec] at this
              exact this hp
          · rename_i q ts2 res2 tr hrec
            simp only [List.mem_cons] at hp
            rcases hp with hp | hp
            · subst hp
              exact ⟨bne_iff_ne.1 hpend0, hdeps0⟩
            · have := ih (dictInsert res t.task_id r) p
              rw [hrec] at this
              exact this hp
      · split at hp
        · rename_i e tr hrec
          have := ih res p
          rw [hrec] at this
          exact this hp
        · rename_i q ts2 res2 tr hrec
          have := ih res p
          rw [hrec] at this
          exact this hp
    · split at hp
      · rename_i e tr hrec
        have := ih res p
        rw [hrec] at this
        exact this hp
      · rename_i q ts2 res2 tr hrec
        have := ih res p
        rw [hrec] at this
        exact this hp

/-- The tasks handed to `execute_task` during one scan, in invocation
order, form a sublist of the scanned task list: simultaneously eligible
tasks are executed in plan order. -/
theorem scanTasksT_sublist (f : Task → Except String String) :
    ∀ (ts : List Task) (res : List (String × String)),
      List.Sublist ((scanTasksT f ts res).2.map Prod.fst) ts := by
  intro ts
  induction ts with
  | nil => intro res; simp [scanTasksT]
  | cons t ts ih =>
    intro res
    unfold scanTasksT
    split
    · split
      · split
        · rename_i e hft
          simpa using List.Sublist.cons₂ t (List.nil_sublist ts)
        · rename_i r hft
          split
          · rename_i e tr hrec
            have := ih (dictInsert res t.task_id r)
            rw [hrec] at this
            simpa using List.Sublist.cons₂ t this
          · rename_i q ts2 res2 tr hrec
            have := ih (dictInsert res t.task_id r)
            rw [hrec] at this
            simpa using List.Sublist.cons₂ t this
      · split
        · rename_i e tr hrec
          have := ih res
          rw [hrec] at this
          exact List.Sublist.cons t this
        · rename_i q ts2 res2 tr hrec
          have := ih res
          rw [hrec] at this
          exact List.Sublist.cons t this
    · split
      · rename_i e tr hrec
        have := ih res
        rw [hrec] at this
        exact List.Sublist.cons t this
      · rename_i q ts2 res2 tr hrec
        have := ih res
        rw [hrec] at this
        exact List.Sublist.cons t this

theorem runLoopT_fst (f : Task → Except String String) :
    ∀ (fuel : Nat) (ts : List Task) (res : List (String × String)),
      (runLoopT f fuel ts res).1 = runLoop f fuel ts res := by
  intro fuel
  induction fuel with
  | zero =>
    intro ts res
    unfold runLoopT runLoop
    by_cases h : allCompleted ts = true
    · simp [h]
    · simp [h]
  | succ n ih =>
    intro ts res
    unfold runLoopT runLoop
    by_cases h : allCompleted ts = true
    · simp [h]
    · simp only [h, if_false, Bool.false_eq_true]
      split
      · rename_i e tr hrec
        rw [← scanTasksT_fst f ts res, hrec]
      · rename_i q ts2 res2 tr hrec
        rw [← scanTasksT_fst f ts res, hrec]
        cases hrec2 : runLoopT f n ts2 res2 with
        | mk out tr2 =>
          have hout := ih ts2 res2
          rw [hrec2] at hout
          simp [← hout]

theorem runLoopT_guard (f : Task → Except String String) :
    ∀ (fuel : Nat) (ts : List Task) (res : List (String × String)),
      ∀ p ∈ (runLoopT f fuel ts res).2,
        p.1.status ≠ "completed" ∧
        p.1.dependencies.all (fun d => dictContains p.2 d) = true := by
  intro fuel
  induction fuel with
  | zero =>
    intro ts res p hp
    unfold runLoopT at hp
    split at hp <;> simp at hp
  | succ n ih =>
    intro ts res p hp
    unfold runLoopT at hp
    split at hp
    · simp at hp
    · split at hp
      · rename_i e tr hrec
        have := scanTasksT_guard f ts res p
        rw [hrec] at this
        exact this (by simpa using hp)
      · rename_i q ts2 res2 tr hrec
        cases hrec2 : runLoopT f n ts2 res2 with
        | mk out tr2 =>
          rw [hrec2] at hp
          simp only [List.mem_append] at hp
          rcases hp with hp | hp
          · have := scanTasksT_guard f ts res p
            rw [hrec] at this
            exact this hp
          · have := ih ts2 res2 p
            rw [hrec2] at this
            exact this hp

/-- Mid-scan results dicts recorded in the trace are dominated by the
scan's final results dict. -/
theorem scanTasksT_trace_keys (f : Task → Except String String) :
    ∀ (ts : List Task) (res : List (String × String)) (ts' : List Task)
      (res' : List (String × String)) (tr : List (Task × List (String × String))),
      scanTasksT f ts res = (.ok (ts', res'), tr) →
      ∀ p ∈ tr, ∀ k, dictContains p.2 k = true → dictContains res' k = true := by
  intro ts
  induction ts with
  | nil =>
    intro res ts' res' tr h p hp k hk
    simp only [scanTasksT, Prod.mk.injEq, Except.ok.injEq] at h
    obtain ⟨⟨h1, h2⟩, h3⟩ := h
    subst h3
    exact absurd hp (by simp)
  | cons t ts ih =>
    intro res ts' res' tr h p hp k hk
    unfold scanTasksT at h
    split at h
    · split at h
      · split at h
        · simp at h
        · rename_i r hft
          split at h
          · simp at h
          · rename_i q ts2 res2 tr0 hrec
            simp only [Prod.mk.injEq, Except.ok.injEq] at h
            obtain ⟨⟨h1, h2⟩, h3⟩ := h
            subst h1; subst h2; subst h3
            rcases List.mem_cons.1 hp with hp | hp
            · subst hp
              have hm := (scan_main f ts (dictInsert res t.task_id r) ts2 res2
                (by rw [← scanTasksT_fst f ts (dictInsert res t.task_id r), hrec])).2.1
              exact hm k (dictContains_insert_mono _ _ _ _ hk)
            · exact ih (dictInsert res t.task_id r) ts2 res2 tr0 hrec p hp k hk
      · split at h
        · simp at h
        · rename_i q ts2 res2 tr0 hrec
          simp only [Prod.mk.injEq, Except.ok.injEq] at h
          obtain ⟨⟨h1, h2⟩, h3⟩ := h
          subst h1; subst h2; subst h3
          exact ih res ts2 res2 tr0 hrec p hp k hk
    · split at h
      · simp at h
      · rename_i q ts2 res2 tr0 hrec
        simp only [Prod.mk.injEq, Except.ok.injEq] at h
        obtain ⟨⟨h1, h2⟩, h3⟩ := h
        subst h1; subst h2; subst h3
        exact ih res ts2 res2 tr0 hrec p hp k hk

/-- Mid-run results dicts recorded in the trace of a successful run are
dominated by the run's final results dict. -/
theorem runLoopT_trace_keys (f : Task → Except String String) :
    ∀ (fuel : Nat) (ts : List Task) (res : List (String × String))
      (tsf : List Task) (resf : List (String × String))
      (TR : List (Task × List (String × String))),
      runLoopT f fuel ts res = (some (.ok (tsf, resf)), TR) →
      ∀ p ∈ TR, ∀ k, dictContains p.2 k = true → dictContains resf k = true := by
  intro fuel
  induction fuel with
  | zero =>
    intro ts res tsf resf TR h p hp k hk
    unfold runLoopT at h
    split at h
    · simp only [Prod.mk.injEq] at h
      obtain ⟨h1, h2⟩ := h
      subst h2
      exact absurd hp (by simp)
    · simp at h
  | succ n ih =>
    intro ts res tsf resf TR h p hp k hk
    unfold runLoopT at h
    split at h
    · simp only [Prod.mk.injEq] at h
      obtain ⟨h1, h2⟩ := h
      subst h2
      exact absurd hp (by simp)
    · split at h
      · simp at h
      · rename_i q ts2 res2 tr hrec
        cases hrec2 : runLoopT f n ts2 res2 with
        | mk out tr2 =>
          rw [hrec2] at h
          simp only [Prod.mk.injEq] at h
          obtain ⟨h1, h2⟩ := h
          subst h2
          rcases List.mem_append.1 hp with hp | hp
          · have hs := scanTasksT_trace_keys f ts res ts2 res2 tr hrec p hp k hk
            have hrl : runLoop f n ts2 res2 = some (.ok (tsf, resf)) := by
              rw [← runLoopT_fst f n ts2 res2, hrec2]
              exact h1
            exact runLoop_keys_mono f n ts2 res2 tsf resf hrl k hs
          · exact ih ts2 res2 tsf resf tr2 (by rw [hrec2, h1]) p hp k hk

/-- Every key of the results dict after a scan is either an old key or
the id of a task that the scan left `"completed"`. -/
theorem scan_new_keys_completed (f : Task → Except String String) :
    ∀ (ts : List Task) (res : List (String × String)) (ts' : List Task)
      (res' : List (String × String)),
      scanTasks f ts res = .ok (ts', res') →
      ∀ k, dictContains res' k = true →
        dictContains res k = true ∨
          ∃ u ∈ ts', u.task_id = k ∧ u.status = "completed" := by
  intro ts
  induction ts with
  | nil =>
    intro res ts' res' h k hk
    simp only [scanTasks, Except.ok.injEq, Prod.mk.injEq] at h
    obtain ⟨h1, h2⟩ := h
    subst h2
    exact Or.inl hk
  | cons t ts ih =>
    intro res ts' res' h k hk
    unfold scanTasks at h
    split at h
    · split at h
      · split at h
        · cases h
        · rename_i r hft
          split at h
          · cases h
          · rename_i p ts2 res2 hrec
            simp only [Except.ok.injEq, Prod.mk.injEq] at h
            obtain ⟨h1, h2⟩ := h
            subst h1; subst h2
            rcases ih _ _ _ hrec k hk with hk2 | ⟨u, hu, hid, hst⟩
            · rcases dictContains_insert_elim _ _ _ _ hk2 with hk3 | hk3
              · exact Or.inl hk3
              · exact Or.inr ⟨{ t with result := some r, status := "completed" },
                  List.mem_cons_self _ _, hk3.symm, rfl⟩
            · exact Or.inr ⟨u, List.mem_cons_of_mem _ hu, hid, hst⟩
      · split at h
        · cases h
        · rename_i p ts2 res2 hrec
          simp only [Except.ok.injEq, Prod.mk.injEq] at h
          obtain ⟨h1, h2⟩ := h
          subst h1; subst h2
          rcases ih _ _ _ hrec k hk with hk2 | ⟨u, hu, hid, hst⟩
          · exact Or.inl hk2
          · exact Or.inr ⟨u, List.mem_cons_of_mem _ hu, hid, hst⟩
    · split at h
      · cases h
      · rename_i p ts2 res2 hrec
        simp only [Except.ok.injEq, Prod.mk.injEq] at h
        obtain ⟨h1, h2⟩ := h
        subst h1; subst h2
        rcases ih _ _ _ hrec k hk with hk2 | ⟨u, hu, hid, hst⟩
        · exact Or.inl hk2
        · exact Or.inr ⟨u, List.mem_cons_of_mem _ hu, hid, hst⟩

theorem scan_preserves_keysComp {f : Task → Except String String}
    {ts : List Task} {res : List (String × String)} {ts' : List Task}
    {res' : List (String × String)}
    (h : scanTasks f ts res = .ok (ts', res'))
    (hkc : KeysComp ts res) : KeysComp ts' res' := by
  intro k hk
  rcases scan_new_keys_completed f ts res ts' res' h k hk with hk2 | hfound
  · obtain ⟨u, hu, hid, hst⟩ := hkc k hk2
    obtain ⟨⟨i, hi⟩, hgu⟩ := List.mem_iff_get.1 hu
    have hfor := (scan_main f _ _ _ _ h).1
    have hlen := hfor.length_eq
    have hi2 : i < ts'.length := by omega
    have heq : ts'.get ⟨i, hi2⟩ = ts.get ⟨i, hi⟩ :=
      (hfor.get hi hi2).of_completed (by rw [hgu]; exact hst)
    refine ⟨u, ?_, hid, hst⟩
    rw [← hgu, ← heq]
    exact List.get_mem _ _ _
  · exact hfound

theorem runLoop_preserves_keysComp (f : Task → Except String String) :
    ∀ (fuel : Nat) (ts : List Task) (res : List (String × String))
      (tsf : List Task) (resf : List (String × String)),
      runLoop f fuel ts res = some (.ok (tsf, resf)) →
      KeysComp ts res → KeysComp tsf resf := by
  intro fuel
  induction fuel with
  | zero =>
    intro ts res tsf resf h hkc
    unfold runLoop at h
    split at h
    · simp only [Option.some.injEq, Except.ok.injEq, Prod.mk.injEq] at h
      obtain ⟨h1, h2⟩ := h
      subst h1; subst h2
      exact hkc
    · cases h
  | succ n ih =>
    intro ts res tsf resf h hkc
    unfold runLoop at h
    split at h
    · simp only [Option.some.injEq, Except.ok.injEq, Prod.mk.injEq] at h
      obtain ⟨h1, h2⟩ := h
      subst h1; subst h2
      exact hkc
    · split at h
      · simp at h
      · rename_i p ts2 res2 hscan
        exact ih _ _ _ _ h (scan_preserves_keysComp hscan hkc)

/-- A step-related list keeps the same ids in the same positions. -/
theorem forall2_ids_eq {f : Task → Except String String} {a b : List Task}
    (h : List.Forall₂ (StepRel f) a b) :
    b.map Task.task_id = a.map Task.task_id := by
  refine List.ext_get (by simpa using h.length_eq.symm) ?_
  intro i h1 h2
  simp only [List.get_map]
  exact (h.get (by simpa using h2) (by simpa using h1)).task_id_eq

/-- In a list whose ids are pairwise distinct, two members with the same
id coincide. -/
theorem nodup_id_inj {ts : List Task} (h : (ts.map Task.task_id).Nodup) :
    ∀ a ∈ ts, ∀ b ∈ ts, a.task_id = b.task_id → a = b := by
  intro a ha b hb hab
  obtain ⟨⟨i, hi⟩, hga⟩ := List.mem_iff_get.1 ha
  obtain ⟨⟨j, hj⟩, hgb⟩ := List.mem_iff_get.1 hb
  by_cases hij : i = j
  · subst hij
    rw [← hga, ← hgb]
  · exfalso
    have hmi : i < (ts.map Task.task_id).length := by simpa using hi
    have hmj : j < (ts.map Task.task_id).length := by simpa using hj
    have hg : (ts.map Task.task_id).get ⟨i, hmi⟩ =
        (ts.map Task.task_id).get ⟨j, hmj⟩ := by
      simp only [List.get_map]
      rw [hga, hgb, hab]
    have := (List.Nodup.get_inj_iff h).1 hg
    exact hij (by simpa using this)

/-- A scan never hands an initially-`"completed"` task to `execute_task`
(ids pairwise distinct). -/
theorem scan_no_exec_completed (f : Task → Except String String)
    (ts : List Task) (res : List (String × String))
    (hnd : (ts.map Task.task_id).Nodup)
    (tstar : Task) (hmem : tstar ∈ ts) (hst : tstar.status = "completed") :
    ∀ p ∈ (scanTasksT f ts res).2, p.1.task_id ≠ tstar.task_id := by
  intro p hp heq
  have hg := scanTasksT_guard f ts res p hp
  have hmem2 : p.1 ∈ ts :=
    (scanTasksT_sublist f ts res).subset (List.mem_map_of_mem Prod.fst hp)
  exact hg.1 (by rw [nodup_id_inj hnd p.1 hmem2 tstar hmem heq]; exact hst)

/-- A step-related list keeps its `"completed"` members. -/
theorem forall2_completed_mem {f : Task → Except String String}
    {a b : List Task} (h : List.Forall₂ (StepRel f) a b) :
    ∀ u ∈ a, u.status = "completed" → u ∈ b := by
  intro u hu hst
  obtain ⟨⟨i, hi⟩, hgu⟩ := List.mem_iff_get.1 hu
  have hlen := h.length_eq
  have hi2 : i < b.length := by omega
  have heq : b.get ⟨i, hi2⟩ = a.get ⟨i, hi⟩ :=
    (h.get hi hi2).of_completed (by rw [hgu]; exact hst)
  rw [← hgu, ← heq]
  exact List.get_mem _ _ _

/-- The whole run never hands an initially-`"completed"` task to
`execute_task` (ids pairwise distinct). -/
theorem runLoopT_no_exec_completed (f : Task → Except String String) :
    ∀ (fuel : Nat) (ts : List Task) (res : List (String × String)),
      (ts.map Task.task_id).Nodup →
      ∀ tstar ∈ ts, tstar.status = "completed" →
      ∀ p ∈ (runLoopT f fuel ts res).2, p.1.task_id ≠ tstar.task_id := by
  intro fuel
  induction fuel with
  | zero =>
    intro ts res hnd tstar hmem hst p hp
    unfold runLoopT at hp
    split at hp <;> simp at hp
  | succ n ih =>
    intro ts res hnd tstar hmem hst p hp
    unfold runLoopT at hp
    split at hp
    · simp at hp
    · split at hp
      · rename_i e tr hrec
        have := scan_no_exec_completed f ts res hnd tstar hmem hst p
        rw [hrec] at this
        exact this (by simpa using hp)
      · rename_i q ts2 res2 tr hrec
        cases hrec2 : runLoopT f n ts2 res2 with
        | mk out tr2 =>
          rw [hrec2] at hp
          simp only [List.mem_append] at hp
          rcases hp with hp | hp
          · have := scan_no_exec_completed f ts res hnd tstar hmem hst p
            rw [hrec] at this
            exact this hp
          · have hscan : scanTasks f ts res = .ok (ts2, res2) := by
              rw [← scanTasksT_fst f ts res, hrec]
            have hfor := (scan_main f _ _ _ _ hscan).1
            have hnd2 : (ts2.map Task.task_id).Nodup := by
              rw [forall2_ids_eq hfor]
              exact hnd
            have hmem2 : tstar ∈ ts2 := forall2_completed_mem hfor tstar hmem hst
            have := ih ts2 res2 hnd2 tstar hmem2 hst p
            rw [hrec2] at this
            exact this hp

/-- If a full scan leaves the state unchanged while some task is still
not `"completed"`, the loop spins forever: no amount of fuel makes it
exit. -/
theorem runLoop_stall (f : Task → Except String String)
    (ts : List Task) (res : List (String × String))
    (hfix : scanTasks f ts res = .ok (ts, res))
    (hnc : allCompleted ts = false) :
    ∀ fuel, runLoop f fuel ts res = none := by
  intro fuel
  induction fuel with
  | zero =>
    unfold runLoop
    simp [hnc]
  | succ n ih =>
    unfold runLoop
    simp [hnc, hfix, ih]

/-- The cycle invariant: no key of the results dict lies on the cycle,
and every task on the cycle is unfinished with a dependency on the
cycle.  One scan preserves it. -/
theorem scan_cyc (f : Task → Except String String) (cyc : List String) :
    ∀ (ts : List Task) (res : List (String × String)) (ts' : List Task)
      (res' : List (String × String)),
      scanTasks f ts res = .ok (ts', res') →
      (∀ k, dictContains res k = true → k ∉ cyc) →
      (∀ t ∈ ts, t.task_id ∈ cyc →
        t.status ≠ "completed" ∧ ∃ d ∈ t.dependencies, d ∈ cyc) →
      (∀ k, dictContains res' k = true → k ∉ cyc) ∧
      (∀ t ∈ ts', t.task_id ∈ cyc →
        t.status ≠ "completed" ∧ ∃ d ∈ t.dependencies, d ∈ cyc) := by
  intro ts
  induction ts with
  | nil =>
    intro res ts' res' h hres hts
    simp only [scanTasks, Except.ok.injEq, Prod.mk.injEq] at h
    obtain ⟨h1, h2⟩ := h
    subst h1; subst h2
    exact ⟨hres, by simp⟩
  | cons t ts ih =>
    intro res ts' res' h hres hts
    unfold scanTasks at h
    split at h
    · rename_i hpend0
      split at h
      · rename_i hdeps0
        split at h
        · cases h
        · rename_i r hft
          split at h
          · cases h
          · rename_i p ts2 res2 hrec
            simp only [Except.ok.injEq, Prod.mk.injEq] at h
            obtain ⟨h1, h2⟩ := h
            subst h1; subst h2
            have hid : t.task_id ∉ cyc := by
              intro hin
              obtain ⟨_, d, hd, hdc⟩ := hts t (List.mem_cons_self _ _) hin
              exact (hres d (List.all_eq_true.1 hdeps0 d hd)) hdc
            have hres2 : ∀ k, dictContains (dictInsert res t.task_id r) k = true →
                k ∉ cyc := by
              intro k hk
              rcases dictContains_insert_elim _ _ _ _ hk with hk | hk
              · exact hres k hk
              · rw [hk]
                exact hid
            obtain ⟨ih1, ih2⟩ := ih _ _ _ hrec hres2
              (fun u hu => hts u (List.mem_cons_of_mem _ hu))
            refine ⟨ih1, ?_⟩
            intro u hu hin
            rcases List.mem_cons.1 hu with hu | hu
            · subst hu
              exact absurd hin hid
            · exact ih2 u hu hin
      · split at h
        · cases h
        · rename_i p ts2 res2 hrec
          simp only [Except.ok.injEq, Prod.mk.injEq] at h
          obtain ⟨h1, h2⟩ := h
          subst h1; subst h2
          obtain ⟨ih1, ih2⟩ := ih _ _ _ hrec hres
            (fun u hu => hts u (List.mem_cons_of_mem _ hu))
          refine ⟨ih1, ?_⟩
          intro u hu hin
          rcases List.mem_cons.1 hu with hu | hu
          · subst hu
            exact hts u (List.mem_cons_self _ _) hin
          · exact ih2 u hu hin
    · split at h
      · cases h
      · rename_i p ts2 res2 hrec
        simp only [Except.ok.injEq, Prod.mk.injEq] at h
        obtain ⟨h1, h2⟩ := h
        subst h1; subst h2
        obtain ⟨ih1, ih2⟩ := ih _ _ _ hrec hres
          (fun u hu => hts u (List.mem_cons_of_mem _ hu))
        refine ⟨ih1, ?_⟩
        intro u hu hin
        rcases List.mem_cons.1 hu with hu | hu
        · subst hu
          exact hts u (List.mem_cons_self _ _) hin
        · exact ih2 u hu hin

/-- With a dependency cycle among unfinished tasks, the loop never
exits, whatever the fuel. -/
theorem runLoop_cyc (f : Task → Except String String)
    (hf : ∀ t, ∃ r, f t = .ok r) (cyc : List String) :
    ∀ (fuel : Nat) (ts : List Task) (res : List (String × String)),
      (∀ k, dictContains res k = true → k ∉ cyc) →
      (∀ t ∈ ts, t.task_id ∈ cyc →
        t.status ≠ "completed" ∧ ∃ d ∈ t.dependencies, d ∈ cyc) →
      (∃ t ∈ ts, t.task_id ∈ cyc) →
      runLoop f fuel ts res = none := by
  intro fuel
  induction fuel with
  | zero =>
    intro ts res hres hts hex
    obtain ⟨t, ht, htc⟩ := hex
    have hnc : ¬ (allCompleted ts = true) := by
      intro hall
      exact (hts t ht htc).1 (beq_iff_eq.1 (List.all_eq_true.1 hall t ht))
    unfold runLoop
    rw [if_neg hnc]
  | succ n ih =>
    intro ts res hres hts hex
    obtain ⟨t, ht, htc⟩ := hex
    have hnc : ¬ (allCompleted ts = true) := by
      intro hall
      exact (hts t ht htc).1 (beq_iff_eq.1 (List.all_eq_true.1 hall t ht))
    unfold runLoop
    rw [if_neg hnc]
    obtain ⟨ts2, res2, hscan⟩ := scan_ok_of_exec_ok f hf ts res
    simp only [hscan]
    obtain ⟨hres2, hts2⟩ := scan_cyc f cyc ts res ts2 res2 hscan hres hts
    refine ih ts2 res2 hres2 hts2 ?_
    obtain ⟨⟨i, hi⟩, hgi⟩ := List.mem_iff_get.1 ht
    have hfor := (scan_main f _ _ _ _ hscan).1
    have hlen := hfor.length_eq
    have hi2 : i < ts2.length := by omega
    refine ⟨ts2.get ⟨i, hi2⟩, List.get_mem _ _ _, ?_⟩
    rw [(hfor.get hi hi2).task_id_eq, hgi]
    exact htc

/-- Every key of a successful scan's final results dict is an initial
key or the id of some task the scan's trace records as executed. -/
theorem scanTasksT_final_keys (f : Task → Except String String) :
    ∀ (ts : List Task) (res : List (String × String)) (ts' : List Task)
      (res' : List (String × String)) (tr : List (Task × List (String × String))),
      scanTasksT f ts res = (.ok (ts', res'), tr) →
      ∀ k, dictContains res' k = true →
        dictContains res k = true ∨ ∃ p ∈ tr, p.1.task_id = k := by
  intro ts
  induction ts with
  | nil =>
    intro res ts' res' tr h k hk
    simp only [scanTasksT, Prod.mk.injEq, Except.ok.injEq] at h
    obtain ⟨⟨h1, h2⟩, h3⟩ := h
    subst h2
    exact Or.inl hk
  | cons t ts ih =>
    intro res ts' res' tr h k hk
    unfold scanTasksT at h
    split at h
    · split at h
      · split at h
        · simp at h
        · rename_i r hft
          split at h
          · simp at h
          · rename_i q ts2 res2 tr0 hrec
            simp only [Prod.mk.injEq, Except.ok.injEq] at h
            obtain ⟨⟨h1, h2⟩, h3⟩ := h
            subst h1; subst h2; subst h3
            rcases ih (dictInsert res t.task_id r) ts2 res2 tr0 hrec k hk with
              hk2 | ⟨p, hp, hpid⟩
            · rcases dictContains_insert_elim _ _ _ _ hk2 with hk3 | hk3
              · exact Or.inl hk3
              · exact Or.inr ⟨(t, res), List.mem_cons_self _ _, hk3.symm⟩
            · exact Or.inr ⟨p, List.mem_cons_of_mem _ hp, hpid⟩
      · split at h
        · simp at h
        · rename_i q ts2 res2 tr0 hrec
          simp only [Prod.mk.injEq, Except.ok.injEq] at h
          obtain ⟨⟨h1, h2⟩, h3⟩ := h
          subst h1; subst h2; subst h3
          exact ih res ts2 res2 tr0 hrec k hk
    · split at h
      · simp at h
      · rename_i q ts2 res2 tr0 hrec
        simp only [Prod.mk.injEq, Except.ok.injEq] at h
        obtain ⟨⟨h1, h2⟩, h3⟩ := h
        subst h1; subst h2; subst h3
        exact ih res ts2 res2 tr0 hrec k hk

/-- Within one scan, whatever its outcome: every key of the results dict
seen by an invocation is an initial key or the id of a strictly earlier
invocation of the same scan. -/
theorem scanTasksT_earlier_keys (f : Task → Except String String) :
    ∀ (ts : List Task) (res : List (String × String))
      (out : Except String (List Task × List (String × String)) ×
        List (Task × List (String × String))),
      scanTasksT f ts res = out →
      ∀ i (hi : i < out.2.length), ∀ k,
        dictContains (out.2.get ⟨i, hi⟩).2 k = true →
        dictContains res k = true ∨
          ∃ j, ∃ hj : j < out.2.length, j < i ∧
            (out.2.get ⟨j, hj⟩).1.task_id = k := by
  intro ts
  induction ts with
  | nil =>
    intro res out h i hi
    simp only [scanTasksT] at h
    subst h
    exact absurd hi (by simp)
  | cons t ts ih =>
    intro res out h i hi k hk
    unfold scanTasksT at h
    split at h
    · split at h
      · split at h
        · rename_i e hft
          subst h
          cases i with
          | zero => exact Or.inl hk
          | succ j => exact absurd hi (by simp)
        · rename_i r hft
          split at h
          · rename_i e tr0 hrec
            subst h
            cases i with
            | zero => exact Or.inl hk
            | succ j =>
              have hj0 : j < tr0.length := by simpa using hi
              rcases ih (dictInsert res t.task_id r) _ hrec j hj0 k hk with
                hk2 | ⟨j2, hj2, hlt, hid⟩
              · rcases dictContains_insert_elim _ _ _ _ hk2 with hk3 | hk3
                · exact Or.inl hk3
                · exact Or.inr ⟨0, by simp, Nat.zero_lt_succ _, hk3.symm⟩
              · exact Or.inr ⟨j2 + 1, by simpa using hj2,
                  Nat.succ_lt_succ hlt, by simpa using hid⟩
          · rename_i q ts2 res2 tr0 hrec
            subst h
            cases i with
            | zero => exact Or.inl hk
            | succ j =>
              have hj0 : j < tr0.length := by simpa using hi
              rcases ih (dictInsert res t.task_id r) _ hrec j hj0 k hk with
                hk2 | ⟨j2, hj2, hlt, hid⟩
              · rcases dictContains_insert_elim _ _ _ _ hk2 with hk3 | hk3
                · exact Or.inl hk3
                · exact Or.inr ⟨0, by simp, Nat.zero_lt_succ _, hk3.symm⟩
              · exact Or.inr ⟨j2 + 1, by simpa using hj2,
                  Nat.succ_lt_succ hlt, by simpa using hid⟩
      · split at h
        · rename_i e tr0 hrec
          subst h
          exact ih res _ hrec i hi k hk
        · rename_i q ts2 res2 tr0 hrec
          subst h
          exact ih res _ hrec i hi k hk
    · split at h
      · rename_i e tr0 hrec
        subst h
        exact ih res _ hrec i hi k hk
      · rename_i q ts2 res2 tr0 hrec
        subst h
        exact ih res _ hrec i hi k hk

/-- Across the whole run, whatever its outcome: every key of the results
dict seen by an invocation is an initial key or the id of a strictly
earlier invocation of the run. -/
theorem runLoopT_earlier_keys (f : Task → Except String String) :
    ∀ (fuel : Nat) (ts : List Task) (res : List (String × String))
      (out : Option (Except String (List Task × List (String × String))))
      (TR : List (Task × List (String × String))),
      runLoopT f fuel ts res = (out, TR) →
      ∀ i (hi : i < TR.length), ∀ k,
        dictContains (TR.get ⟨i, hi⟩).2 k = true →
        dictContains res k = true ∨
          ∃ j, ∃ hj : j < TR.length, j < i ∧
            (TR.get ⟨j, hj⟩).1.task_id = k := by
  intro fuel
  induction fuel with
  | zero =>
    intro ts res out TR h i hi
    unfold runLoopT at h
    split at h <;>
      (simp only [Prod.mk.injEq] at h
       obtain ⟨h1, h2⟩ := h
       subst h2
       exact absurd hi (by simp))
  | succ n ih =>
    intro ts res out TR h i hi k hk
    unfold runLoopT at h
    split at h
    · simp only [Prod.mk.injEq] at h
      obtain ⟨h1, h2⟩ := h
      subst h2
      exact absurd hi (by simp)
    · split at h
      · rename_i e tr hrec
        simp only [Prod.mk.injEq] at h
        obtain ⟨h1, h2⟩ := h
        subst h2
        exact scanTasksT_earlier_keys f ts res _ hrec i hi k hk
      · rename_i q ts2 res2 tr hrec
        cases hrec2 : runLoopT f n ts2 res2 with
        | mk out2 tr2 =>
          rw [hrec2] at h
          simp only [Prod.mk.injEq] at h
          obtain ⟨h1, h2⟩ := h
          subst h2
          by_cases hi1 : i < tr.length
          · have hgl : (tr ++ tr2).get ⟨i, hi⟩ = tr.get ⟨i, hi1⟩ := by
              simp [List.getElem_append_left hi1]
            rw [hgl] at hk
            have := scanTasksT_earlier_keys f ts res (.ok (ts2, res2), tr)
              (by rw [hrec]) i hi1 k hk
            rcases this with hk2 | ⟨j, hj, hlt, hid⟩
            · exact Or.inl hk2
            · refine Or.inr ⟨j, ?_, hlt, ?_⟩
              · simp only [List.length_append]
                omega
              · have hgj : (tr ++ tr2).get ⟨j, by simp only [List.length_append]; omega⟩ =
                    tr.get ⟨j, hj⟩ := by
                  simp [List.getElem_append_left hj]
                rw [hgj]
                exact hid
          · have hge : tr.length ≤ i := Nat.le_of_not_lt hi1
            have hm : i - tr.length < tr2.length := by
              have := hi
              simp only [List.length_append] at this
              omega
            have hgr : (tr ++ tr2).get ⟨i, hi⟩ = tr2.get ⟨i - tr.length, hm⟩ := by
              simp [List.getElem_append_right hge]
            rw [hgr] at hk
            rcases ih ts2 res2 out2 tr2 hrec2 (i - tr.length) hm k hk with
              hk2 | ⟨j2, hj2, hlt2, hid2⟩
            · rcases scanTasksT_final_keys f ts res ts2 res2 tr hrec k hk2 with
                hk3 | ⟨p, hp, hpid⟩
              · exact Or.inl hk3
              · obtain ⟨⟨jp, hjp⟩, hgp⟩ := List.mem_iff_get.1 hp
                refine Or.inr ⟨jp, ?_, by omega, ?_⟩
                · simp only [List.length_append]
                  omega
                · have hgj : (tr ++ tr2).get
                      ⟨jp, by simp only [List.length_append]; omega⟩ =
                        tr.get ⟨jp, hjp⟩ := by
                    simp [List.getElem_append_left hjp]
                  rw [hgj, hgp]
                  exact hpid
            · refine Or.inr ⟨tr.length + j2, ?_, by omega, ?_⟩
              · simp only [List.length_append]
                omega
              · have hgj : (tr ++ tr2).get
                    ⟨tr.length + j2, by simp only [List.length_append]; omega⟩ =
                      tr2.get ⟨j2, hj2⟩ := by
                  have hge2 : tr.length ≤ tr.length + j2 := Nat.le_add_right _ _
                  simp [List.getElem_append_right hge2]
                rw [hgj]
                exact hid2

/-! ## Claims -/

/-- C1: for every plan whose dependency graph is a finite acyclic DAG
over existing task identifiers (acyclicity witnessed by a topological
ranking of the ids, every declared dependency naming a task of the plan,
all tasks initially `"pending"`) and whose `execute_task` calls all
return, the `while` loop of `orchestrate_workflow` terminates —
`plan.tasks.length` scans of fuel already suffice — and on termination
every task of the plan has status `"completed"` and the run returns the
successful `WorkflowResult`. -/
theorem C1_run_terminates_all_completed
    (plan : WorkflowPlan) (f : Task → Except String String)
    (rank : String → Nat) (elapsed_ms : Nat)
    (hacyclic : Ranked rank plan.tasks)
    (hdeps : DepsExist plan.tasks)
    (hpending : ∀ t ∈ plan.tasks, t.status = "pending")
    (hexec : ∀ t, ∃ r, f t = .ok r) :
    ∃ tsf resf,
      runLoop f plan.tasks.length plan.tasks [] = some (.ok (tsf, resf)) ∧
      allCompleted tsf = true ∧
      orchestrate_workflow (.ok plan) f elapsed_ms plan.tasks.length =
        some { workflow_id := plan.workflow_id, success := true, results := resf,
               execution_time_ms := elapsed_ms, error_message := none } := by
  have hck : CompKeys plan.tasks [] := by
    intro t ht hc
    rw [hpending t ht] at hc
    simp at hc
  have hfuel : pendCount plan.tasks ≤ plan.tasks.length := by
    unfold pendCount
    exact List.countP_le_length _
  obtain ⟨tsf, resf, hrun, hall⟩ :=
    runLoop_terminates f hexec rank plan.tasks.length plan.tasks []
      hdeps hacyclic hck hfuel
  refine ⟨tsf, resf, hrun, hall, ?_⟩
  simp [orchestrate_workflow, hrun]

/-- Witness instantiating C1 on the three-task scenario plan. -/
theorem C1_witness :
    ∃ tsf resf,
      runLoop execDemo planABC.tasks.length planABC.tasks [] =
        some (.ok (tsf, resf)) ∧
      allCompleted tsf = true ∧
      orchestrate_workflow (.ok planABC) execDemo 7 planABC.tasks.length =
        some { workflow_id := planABC.workflow_id, success := true, results := resf,
               execution_time_ms := 7, error_message := none } :=
  C1_run_terminates_all_completed planABC execDemo rankDemo 7
    (by unfold Ranked; decide) (by unfold DepsExist; decide) (by decide)
    (fun t => ⟨String.append "r-" t.task_id, rfl⟩)

/-- C2 fails as stated: the plan below has unique task ids, the run
returns `success = true`, yet the results mapping is empty while the plan
has a task `"D"` — because that task's initial status is already
`"completed"`, it is never executed and never keyed into the results. -/
theorem C2_counterexample :
    orchestrate_workflow (.ok planDone) execDemo 5 0 =
      some { workflow_id := "wf-done", success := true, results := [],
             execution_time_ms := 5, error_message := none } ∧
    planDone.tasks.map Task.task_id = ["D"] :=
  ⟨rfl, rfl⟩

/-- C2 (amended): under the data-model precondition that task ids are
unique AND that no task of the plan starts with status `"completed"`,
every successful run's results mapping has exactly one entry per task,
keyed by task id: its key list is a permutation of the plan's id list and
has no duplicates. -/
theorem C2_results_exactly_tasks
    (plan : WorkflowPlan) (f : Task → Except String String)
    (ms fuel : Nat) (r : WorkflowResult)
    (hnodup : (plan.tasks.map Task.task_id).Nodup)
    (hstatus : ∀ t ∈ plan.tasks, t.status ≠ "completed")
    (h : orchestrate_workflow (.ok plan) f ms fuel = some r)
    (hs : r.success = true) :
    (r.results.map Prod.fst).Nodup ∧
    (r.results.map Prod.fst).Perm (plan.tasks.map Task.task_id) := by
  simp only [orchestrate_workflow] at h
  split at h
  · cases h
  · rename_i e hrun
    simp only [Option.some.injEq] at h
    subst h
    simp at hs
  · rename_i q tsf resf hrun
    simp only [Option.some.injEq] at h
    subst h
    have hall := runLoop_ok_allCompleted f fuel plan.tasks [] tsf resf hrun
    have hnod : (resf.map Prod.fst).Nodup :=
      runLoop_preserves_freshNodup f fuel plan.tasks [] tsf resf hrun hnodup
        (fun t ht hp => rfl) List.nodup_nil
    refine ⟨hnod, ?_⟩
    rw [List.perm_ext_iff_of_nodup hnod hnodup]
    intro k
    constructor
    · intro hk
      rcases runLoop_new_keys f fuel plan.tasks [] tsf resf hrun k
          ((dictContains_iff_mem _ _).2 hk) with hc | ⟨u, hu, hid, _⟩
      · simp [dictContains] at hc
      · exact hid ▸ List.mem_map_of_mem Task.task_id hu
    · intro hk
      obtain ⟨u, hu, huid⟩ := List.mem_map.1 hk
      obtain ⟨⟨i, hi⟩, hgu⟩ := List.mem_iff_get.1 hu
      have hlen := (runLoop_forall2 f fuel plan.tasks [] tsf resf hrun).length_eq
      have hif : i < tsf.length := by omega
      have hdone : (tsf.get ⟨i, hif⟩).status = "completed" :=
        beq_iff_eq.1 (List.all_eq_true.1 hall (tsf.get ⟨i, hif⟩) (List.get_mem _ _ _))
      have hpend : (plan.tasks.get ⟨i, hi⟩).status ≠ "completed" := by
        rw [hgu]
        exact hstatus u hu
      have hkey := runLoop_executed_key f fuel plan.tasks [] tsf resf hrun
        i hi hif hpend hdone
      rw [hgu, huid] at hkey
      exact (dictContains_iff_mem _ _).1 hkey

/-- Witness instantiating the amended C2 on the three-task scenario. -/
theorem C2_witness :
    ((({ workflow_id := "wf-1", success := true,
         results := [("A", "r-A"), ("B", "r-B"), ("C", "r-C")],
         execution_time_ms := 5,
         error_message := none } : WorkflowResult).results.map Prod.fst).Nodup) ∧
    ((({ workflow_id := "wf-1", success := true,
         results := [("A", "r-A"), ("B", "r-B"), ("C", "r-C")],
         execution_time_ms := 5,
         error_message := none } : WorkflowResult).results.map Prod.fst).Perm
       (planABC.tasks.map Task.task_id)) :=
  C2_results_exactly_tasks planABC execDemo 5 1
    { workflow_id := "wf-1", success := true,
      results := [("A", "r-A"), ("B", "r-B"), ("C", "r-C")],
      execution_time_ms := 5, error_message := none }
    (by decide) (by decide) (by decide) rfl

/-- C3 fails only in its "non-empty" requirement: a planning failure
whose exception stringifies to the empty string (`str(Exception())` is
`""`) yields `error_message = some ""`, which is empty. -/
theorem C3_counterexample :
    orchestrate_workflow (.error "") execDemo 9 3 =
      some { workflow_id := "failed", success := false, results := [],
             execution_time_ms := 0, error_message := some "" } ∧
    String.length "" = 0 :=
  ⟨rfl, rfl⟩

/-- C3 (amended): whenever planning or any `execute_task` call raises,
the run returns (rather than raising) a `WorkflowResult` with
`success = false`, an empty results mapping (all partial task results
discarded), zero duration, and `error_message` set to the `str` of the
triggering failure — which may be empty when the exception's message is
empty. -/
theorem C3_failure_shape
    (e : String) (f : Task → Except String String)
    (plan : WorkflowPlan) (ms fuel : Nat) :
    (orchestrate_workflow (.error e) f ms fuel =
      some { workflow_id := "failed", success := false, results := [],
             execution_time_ms := 0, error_message := some e }) ∧
    (runLoop f fuel plan.tasks [] = some (.error e) →
      orchestrate_workflow (.ok plan) f ms fuel =
        some { workflow_id := "failed", success := false, results := [],
               execution_time_ms := 0, error_message := some e }) := by
  constructor
  · rfl
  · intro h
    simp [orchestrate_workflow, h]

/-- Witness instantiating the amended C3: `execute_task` raises on the
second task after the first succeeded; the first task's partial result is
discarded. -/
theorem C3_witness :
    orchestrate_workflow (.ok planAB) execFailB 4 1 =
      some { workflow_id := "failed", success := false, results := [],
             execution_time_ms := 0,
             error_message := some "boom: B exploded" } :=
  (C3_failure_shape "boom: B exploded" execFailB planAB 4 1).2 rfl

/-- C4: non-termination.  First conjunct (the general stall): if a full
scan completes with zero newly-completed tasks (the scan is a fixed
point) while some task is still not `"completed"`, the loop never exits,
whatever the fuel.  Second conjunct (the cycle case): if the tasks whose
ids lie on a set `cyc` of identifiers are all unfinished and each keeps a
dependency inside `cyc`, and at least one such task exists, then with an
always-returning executor `orchestrate_workflow` never returns: every
fuel budget is exhausted. -/
theorem C4_nontermination :
    (∀ (f : Task → Except String String) (ts : List Task)
       (res : List (String × String)),
       scanTasks f ts res = .ok (ts, res) → allCompleted ts = false →
       ∀ fuel, runLoop f fuel ts res = none) ∧
    (∀ (plan : WorkflowPlan) (f : Task → Except String String)
       (cyc : List String) (ms : Nat),
       (∀ t, ∃ r, f t = .ok r) →
       (∀ t ∈ plan.tasks, t.task_id ∈ cyc →
         t.status ≠ "completed" ∧ ∃ d ∈ t.dependencies, d ∈ cyc) →
       (∃ t ∈ plan.tasks, t.task_id ∈ cyc) →
       ∀ fuel, orchestrate_workflow (.ok plan) f ms fuel = none) := by
  constructor
  · intro f ts res hfix hnc fuel
    exact runLoop_stall f ts res hfix hnc fuel
  · intro plan f cyc ms hf hts hex fuel
    have hnone := runLoop_cyc f hf cyc fuel plan.tasks []
      (by intro k hk; simp [dictContains] at hk) hts hex
    simp only [orchestrate_workflow, hnone]

/-- Witness instantiating C4 on the A-depends-on-B, B-depends-on-A
cycle. -/
theorem C4_witness :
    runLoop execDemo 5 planCyc.tasks [] = none ∧
    orchestrate_workflow (.ok planCyc) execDemo 3 7 = none :=
  ⟨C4_nontermination.1 execDemo planCyc.tasks [] rfl (by decide) 5,
   C4_nontermination.2 planCyc execDemo ["A", "B"] 3
     (fun t => ⟨String.append "r-" t.task_id, rfl⟩) (by decide) (by decide) 7⟩

/-- C5: the dependency invariant of the execution loop, for every run
started (as `orchestrate_workflow` does) with an empty results mapping
and for every outcome — success, failure or fuel exhaustion.
(1) `execute_task` is invoked only on tasks that are not `"completed"`
and only when every declared dependency is a key of the results mapping
at the moment of invocation; (2) every such dependency names a task that
was executed — and hence marked `"completed"` — strictly earlier in the
run, so no task ever begins execution before its dependencies are
completed; (3) on every full scan each task either stays unchanged or
takes the one-way step from its non-`"completed"` status to
`"completed"`; (4) when the run exits successfully, each dependency key
moreover names a task that ends the run `"completed"`, and the whole run
moves each task by at most that single one-way step. -/
theorem C5_dependency_invariant
    (plan : WorkflowPlan) (f : Task → Except String String) (fuel : Nat)
    (out : Option (Except String (List Task × List (String × String))))
    (TR : List (Task × List (String × String)))
    (h : runLoopT f fuel plan.tasks [] = (out, TR)) :
    (∀ p ∈ TR, p.1.status ≠ "completed" ∧
       p.1.dependencies.all (fun d => dictContains p.2 d) = true) ∧
    (∀ i (hi : i < TR.length), ∀ d ∈ (TR.get ⟨i, hi⟩).1.dependencies,
       ∃ j, ∃ hj : j < TR.length, j < i ∧ (TR.get ⟨j, hj⟩).1.task_id = d) ∧
    (∀ (ts ts' : List Task) (res res' : List (String × String)),
       scanTasks f ts res = .ok (ts', res') → List.Forall₂ (StepRel f) ts ts') ∧
    (∀ tsf resf, out = some (.ok (tsf, resf)) →
       (∀ p ∈ TR, ∀ d ∈ p.1.dependencies,
          ∃ u ∈ tsf, u.task_id = d ∧ u.status = "completed") ∧
       List.Forall₂ (StepRel f) plan.tasks tsf) := by
  refine ⟨?_, ?_, ?_, ?_⟩
  · intro p hp
    have := runLoopT_guard f fuel plan.tasks [] p
    rw [h] at this
    exact this hp
  · intro i hi d hd
    have hg := runLoopT_guard f fuel plan.tasks [] (TR.get ⟨i, hi⟩)
    rw [h] at hg
    have hdp := List.all_eq_true.1 (hg (List.get_mem _ _ _)).2 d hd
    rcases runLoopT_earlier_keys f fuel plan.tasks [] out TR h i hi d hdp with
      hc | hfound
    · simp [dictContains] at hc
    · exact hfound
  · intro ts ts' res res' hscan
    exact (scan_main f _ _ _ _ hscan).1
  · intro tsf resf hout
    subst hout
    have hrl : runLoop f fuel plan.tasks [] = some (.ok (tsf, resf)) := by
      rw [← runLoopT_fst f fuel plan.tasks [], h]
    refine ⟨?_, runLoop_forall2 f fuel plan.tasks [] tsf resf hrl⟩
    intro p hp d hd
    have hg := runLoopT_guard f fuel plan.tasks [] p
    rw [h] at hg
    have hdp := List.all_eq_true.1 (hg hp).2 d hd
    have hkf := runLoopT_trace_keys f fuel plan.tasks [] tsf resf TR h p hp d hdp
    have hkc : KeysComp plan.tasks [] := by
      intro k hk
      simp [dictContains] at hk
    exact runLoop_preserves_keysComp f fuel plan.tasks [] tsf resf hrl hkc d hkf

/-- Witness instantiating C5 on the three-task scenario run. -/
theorem C5_witness :
    (∀ p ∈ [(taskA, ([] : List (String × String))),
            (taskB, [("A", "r-A")]),
            (taskC, [("A", "r-A"), ("B", "r-B")])],
       p.1.status ≠ "completed" ∧
       p.1.dependencies.all (fun d => dictContains p.2 d) = true) ∧
    (∀ i (hi : i < [(taskA, ([] : List (String × String))),
                    (taskB, [("A", "r-A")]),
                    (taskC, [("A", "r-A"), ("B", "r-B")])].length),
       ∀ d ∈ ([(taskA, ([] : List (String × String))),
               (taskB, [("A", "r-A")]),
               (taskC, [("A", "r-A"), ("B", "r-B")])].get ⟨i, hi⟩).1.dependencies,
       ∃ j, ∃ hj : j < [(taskA, ([] : List (String × String))),
                        (taskB, [("A", "r-A")]),
                        (taskC, [("A", "r-A"), ("B", "r-B")])].length,
         j < i ∧
         ([(taskA, ([] : List (String × String))),
           (taskB, [("A", "r-A")]),
           (taskC, [("A", "r-A"), ("B", "r-B")])].get ⟨j, hj⟩).1.task_id = d) ∧
    (∀ (ts ts' : List Task) (res res' : List (String × String)),
       scanTasks execDemo ts res = .ok (ts', res') →
       List.Forall₂ (StepRel execDemo) ts ts') ∧
    (∀ tsf resf,
       (some (.ok ([{ taskA with result := some "r-A", status := "completed" },
                    { taskB with result := some "r-B", status := "completed" },
                    { taskC with result := some "r-C", status := "completed" }],
                   [("A", "r-A"), ("B", "r-B"), ("C", "r-C")])) :
           Option (Except String (List Task × List (String × String)))) =
         some (.ok (tsf, resf)) →
       (∀ p ∈ [(taskA, ([] : List (String × String))),
               (taskB, [("A", "r-A")]),
               (taskC, [("A", "r-A"), ("B", "r-B")])],
          ∀ d ∈ p.1.dependencies,
          ∃ u ∈ tsf, u.task_id = d ∧ u.status = "completed") ∧
       List.Forall₂ (StepRel execDemo) planABC.tasks tsf) :=
  C5_dependency_invariant planABC execDemo 1
    (some (.ok ([{ taskA with result := some "r-A", status := "completed" },
                 { taskB with result := some "r-B", status := "completed" },
                 { taskC with result := some "r-C", status := "completed" }],
                [("A", "r-A"), ("B", "r-B"), ("C", "r-C")])))
    [(taskA, []), (taskB, [("A", "r-A")]), (taskC, [("A", "r-A"), ("B", "r-B")])]
    rfl

/-- C6 fails in its scan accounting: in the A/B/C scenario the first
scan already executes B and C — the results mapping grows during the
scan, so B and C become eligible right after A completes in the same
pass — leaving nothing for a second scan; one unit of fuel suffices to
exit the loop. -/
theorem C6_counterexample :
    scanTasksT execDemo planABC.tasks [] =
      (.ok ([{ taskA with result := some "r-A", status := "completed" },
             { taskB with result := some "r-B", status := "completed" },
             { taskC with result := some "r-C", status := "completed" }],
            [("A", "r-A"), ("B", "r-B"), ("C", "r-C")]),
       [(taskA, []), (taskB, [("A", "r-A")]), (taskC, [("A", "r-A"), ("B", "r-B")])]) ∧
    runLoop execDemo 1 planABC.tasks [] =
      some (.ok ([{ taskA with result := some "r-A", status := "completed" },
                  { taskB with result := some "r-B", status := "completed" },
                  { taskC with result := some "r-C", status := "completed" }],
                 [("A", "r-A"), ("B", "r-B"), ("C", "r-C")])) :=
  ⟨rfl, rfl⟩

/-- C6 (amended): simultaneously-eligible tasks are executed one at a
time in the order they appear in the plan's task list — the per-scan
execution trace is a sublist of the task list — and in the A/B/C
scenario a single scan executes A then B then C (B and C become eligible
mid-scan), after which the run succeeds with results for all three
tasks. -/
theorem C6_list_order
    (f : Task → Except String String) (ts : List Task)
    (res : List (String × String))
    (out : Except String (List Task × List (String × String)))
    (tr : List (Task × List (String × String)))
    (h : scanTasksT f ts res = (out, tr)) :
    List.Sublist (tr.map Prod.fst) ts ∧
    (runLoopT execDemo 1 planABC.tasks []).2.map (fun p => p.1.task_id) =
      ["A", "B", "C"] ∧
    orchestrate_workflow (.ok planABC) execDemo 5 1 =
      some { workflow_id := "wf-1", success := true,
             results := [("A", "r-A"), ("B", "r-B"), ("C", "r-C")],
             execution_time_ms := 5, error_message := none } := by
  refine ⟨?_, rfl, rfl⟩
  have := scanTasksT_sublist f ts res
  rw [h] at this
  exact this

/-- Witness instantiating the amended C6 on the scenario's first scan. -/
theorem C6_witness :
    List.Sublist (((scanTasksT execDemo planABC.tasks []).2).map Prod.fst)
      planABC.tasks ∧
    (runLoopT execDemo 1 planABC.tasks []).2.map (fun p => p.1.task_id) =
      ["A", "B", "C"] ∧
    orchestrate_workflow (.ok planABC) execDemo 5 1 =
      some { workflow_id := "wf-1", success := true,
             results := [("A", "r-A"), ("B", "r-B"), ("C", "r-C")],
             execution_time_ms := 5, error_message := none } :=
  C6_list_order execDemo planABC.tasks [] _ _ rfl

/-- C7: a `"pending"` task with an empty dependency set is executed
during the first scan of the task list (its eligibility check passes
with any results mapping, in particular before any other task
completes), provided every `execute_task` call returns. -/
theorem C7_no_deps_first_scan
    (f : Task → Except String String) (hf : ∀ t, ∃ r, f t = .ok r)
    (ts : List Task) (res : List (String × String))
    (i : Nat) (hi : i < ts.length)
    (hnodeps : (ts.get ⟨i, hi⟩).dependencies = [])
    (hpend : (ts.get ⟨i, hi⟩).status ≠ "completed") :
    ∃ ts' res', scanTasks f ts res = .ok (ts', res') ∧
      ts'.length = ts.length ∧
      ∀ hi' : i < ts'.length,
        (ts'.get ⟨i, hi'⟩).status = "completed" ∧
        dictContains res' (ts.get ⟨i, hi⟩).task_id = true := by
  obtain ⟨ts', res', hscan⟩ := scan_ok_of_exec_ok f hf ts res
  refine ⟨ts', res', hscan,
    (scan_main f _ _ _ _ hscan).1.length_eq.symm, ?_⟩
  intro hi'
  exact scan_exec f ts res ts' res' hscan i hi hi' hpend
    (by rw [hnodeps]; simp)

/-- Witness instantiating C7 on task A of the three-task scenario. -/
theorem C7_witness :
    ∃ ts' res', scanTasks execDemo planABC.tasks [] = .ok (ts', res') ∧
      ts'.length = planABC.tasks.length ∧
      ∀ hi' : 0 < ts'.length,
        (ts'.get ⟨0, hi'⟩).status = "completed" ∧
        dictContains res'
          (planABC.tasks.get ⟨0, by decide⟩).task_id = true :=
  C7_no_deps_first_scan execDemo
    (fun t => ⟨String.append "r-" t.task_id, rfl⟩)
    planABC.tasks [] 0 (by decide) (by decide) (by decide)

/-- C8: whenever an exception is raised — by planning or by a task's
execution — the returned `WorkflowResult` carries the fixed sentinel
`workflow_id = "failed"` rather than the plan's identifier. -/
theorem C8_failed_sentinel
    (e : String) (f : Task → Except String String)
    (plan : WorkflowPlan) (ms fuel : Nat) (r : WorkflowResult)
    (h : orchestrate_workflow (.error e) f ms fuel = some r ∨
         (runLoop f fuel plan.tasks [] = some (.error e) ∧
          orchestrate_workflow (.ok plan) f ms fuel = some r)) :
    r.workflow_id = "failed" := by
  rcases h with h | ⟨hrun, h⟩
  · simp only [orchestrate_workflow, Option.some.injEq] at h
    subst h
    rfl
  · simp only [orchestrate_workflow, hrun, Option.some.injEq] at h
    subst h
    rfl

/-- Witness instantiating C8 on the failing-B run: the plan id `"wf-2"`
is discarded in favour of the sentinel. -/
theorem C8_witness :
    ({ workflow_id := "failed", success := false, results := [],
       execution_time_ms := 0,
       error_message := some "boom: B exploded" } : WorkflowResult).workflow_id =
      "failed" :=
  C8_failed_sentinel "boom: B exploded" execFailB planAB 4 1
    { workflow_id := "failed", success := false, results := [],
      execution_time_ms := 0, error_message := some "boom: B exploded" }
    (Or.inr ⟨rfl, rfl⟩)

/-- C9: the two implicit status edge cases.  First conjunct: a task the
planner returns with status already `"completed"` (ids pairwise
distinct) is never handed to `execute_task` during the whole run, its id
never becomes a key of the results mapping, and it reaches the end of a
successful run unchanged.  Second conjunct: a task with any status other
than `"completed"` (not only `"pending"`) is treated as pending — once
its dependencies are keys of the results mapping the scan executes it,
stores the executor's output and marks it `"completed"`. -/
theorem C9_status_edge_cases :
    (∀ (f : Task → Except String String) (ts : List Task) (fuel : Nat)
       (out : Option (Except String (List Task × List (String × String))))
       (TR : List (Task × List (String × String))),
       (ts.map Task.task_id).Nodup →
       runLoopT f fuel ts [] = (out, TR) →
       ∀ i (hi : i < ts.length), (ts.get ⟨i, hi⟩).status = "completed" →
         (∀ p ∈ TR, p.1.task_id ≠ (ts.get ⟨i, hi⟩).task_id) ∧
         (∀ tsf resf, out = some (.ok (tsf, resf)) →
            dictContains resf (ts.get ⟨i, hi⟩).task_id = false ∧
            ∀ hif : i < tsf.length, tsf.get ⟨i, hif⟩ = ts.get ⟨i, hi⟩)) ∧
    (∀ (f : Task → Except String String) (ts : List Task)
       (res : List (String × String)) (ts' : List Task)
       (res' : List (String × String)),
       scanTasks f ts res = .ok (ts', res') →
       ∀ i (hi : i < ts.length) (hi' : i < ts'.length),
         (ts.get ⟨i, hi⟩).status ≠ "completed" →
         (∀ d ∈ (ts.get ⟨i, hi⟩).dependencies, dictContains res d = true) →
         (ts'.get ⟨i, hi'⟩).status = "completed" ∧
         ∃ r, f (ts.get ⟨i, hi⟩) = .ok r ∧
           ts'.get ⟨i, hi'⟩ =
             { ts.get ⟨i, hi⟩ with result := some r, status := "completed" }) := by
  constructor
  · intro f ts fuel out TR hnd h i hi hcomp
    constructor
    · intro p hp
      have := runLoopT_no_exec_completed f fuel ts [] hnd (ts.get ⟨i, hi⟩)
        (List.get_mem _ _ _) hcomp p
      rw [h] at this
      exact this hp
    · intro tsf resf hout
      subst hout
      have hrl : runLoop f fuel ts [] = some (.ok (tsf, resf)) := by
        rw [← runLoopT_fst f fuel ts [], h]
      constructor
      · cases hcon : dictContains resf (ts.get ⟨i, hi⟩).task_id with
        | false => rfl
        | true =>
          exfalso
          rcases runLoop_new_keys f fuel ts [] tsf resf hrl _ hcon with
            hc | ⟨u, hu, hid, hst⟩
          · simp [dictContains] at hc
          · exact hst (by
              rw [nodup_id_inj hnd u hu (ts.get ⟨i, hi⟩) (List.get_mem _ _ _) hid]
              exact hcomp)
      · intro hif
        exact ((runLoop_forall2 f fuel ts [] tsf resf hrl).get hi hif).of_completed
          hcomp
  · intro f ts res ts' res' hscan i hi hi' hpend hdeps
    have hex := scan_exec f ts res ts' res' hscan i hi hi' hpend hdeps
    refine ⟨hex.1, ?_⟩
    rcases (scan_main f _ _ _ _ hscan).1.get hi hi' with heq | ⟨_, r, hfr, heqr⟩
    · exfalso
      exact hpend (by rw [← heq]; exact hex.1)
    · exact ⟨r, hfr, heqr⟩

/-- Witness instantiating C9: the initially-`"completed"` plan and a
task with status `"in_progress"`. -/
theorem C9_witness :
    ((∀ p ∈ ([] : List (Task × List (String × String))),
        p.1.task_id ≠ (planDone.tasks.get ⟨0, by decide⟩).task_id) ∧
     (∀ (tsf : List Task) (resf : List (String × String)),
        (some (.ok ([taskDone], ([] : List (String × String)))) :
            Option (Except String (List Task × List (String × String)))) =
          some (.ok (tsf, resf)) →
        dictContains resf (planDone.tasks.get ⟨0, by decide⟩).task_id = false ∧
        ∀ hif : 0 < tsf.length,
          tsf.get ⟨0, hif⟩ = planDone.tasks.get ⟨0, by decide⟩)) ∧
    (([{ taskWeird with result := some "r-W", status := "completed" }].get
        ⟨0, by decide⟩).status = "completed" ∧
     ∃ r, execDemo ([taskWeird].get ⟨0, by decide⟩) = .ok r ∧
       [{ taskWeird with result := some "r-W", status := "completed" }].get
           ⟨0, by decide⟩ =
         { [taskWeird].get ⟨0, by decide⟩ with
             result := some r, status := "completed" }) :=
  ⟨C9_status_edge_cases.1 execDemo planDone.tasks 2
      (some (.ok ([taskDone], []))) [] (by decide) rfl 0 (by decide)
      (by decide),
   C9_status_edge_cases.2 execDemo [taskWeird] []
      [{ taskWeird with result := some "r-W", status := "completed" }]
      [("W", "r-W")] rfl 0 (by decide) (by decide) (by decide)
      (by decide)⟩

/-- C10: a plan with an empty task list exits the loop immediately —
whatever the fuel and the executor, so `execute_task` is never called —
returning success with an empty results mapping. -/
theorem C10_empty_plan (wid stage : String)
    (f : Task → Except String String) (ms fuel : Nat) :
    orchestrate_workflow
        (.ok { workflow_id := wid, tasks := [], current_stage := stage })
        f ms fuel =
      some { workflow_id := wid, success := true, results := [],
             execution_time_ms := ms, error_message := none } := by
  cases fuel with
  | zero => rfl
  | succ n => rfl

end Orch
